import Mathlib

/-!
Verification of the Friends-Character-Network repository.

Part 1 embeds the graph model of `GraphConstruct.py`:
nodes carry an insertion-ordered adjacency association list (mirroring a
Python dict), a degree counter, a weighted-degree counter and two
popularity-score lists.  Mutations mirror the imperative code:
`Node.add_neighbor`, `Graph.add_node`, `Graph.add_edge`,
`Graph.build_graph_from_interactions`, popularity additions,
`build_graph_by_seasons` and the BFS `Graph.shortest_path`.

Edge weights are the interaction counts, which are natural numbers.
Popularity scores are numeric values whose arithmetic no claim uses; they
are modelled as integers.
-/

namespace Friends

/-- Association-list lookup, mirroring Python dict lookup
(keys are unique by construction, so first match is the entry). -/
def alookup {κ β : Type} [DecidableEq κ] (key : κ) : List (κ × β) → Option β
  | [] => none
  | (k, v) :: rest => if k = key then some v else alookup key rest

/-- Add `w` to the value stored under `key` (first occurrence), mirroring
`self.neighbors[neighbor] += weight` on a dict that contains the key. -/
def bumpVal (key : String) (w : Nat) : List (String × Nat) → List (String × Nat)
  | [] => []
  | (k, v) :: rest => if k = key then (k, v + w) :: rest else (k, v) :: bumpVal key w rest

/-- Apply `f` to the value stored under `key`, mirroring mutation of
`self.nodes[name]` in place (a no-op when the key is absent, which the
code never relies on: `add_edge` inserts both nodes first). -/
def amodify {β : Type} (key : String) (f : β → β) : List (String × β) → List (String × β)
  | [] => []
  | (k, v) :: rest => if k = key then (k, f v) :: rest else (k, v) :: amodify key f rest

/-- A graph node, from `GraphConstruct.Node.__init__`. -/
structure Node where
  name : String
  neighbors : List (String × Nat)
  degree : Nat
  weighted_degree : Nat
  pop_scores : List Int
  effective_pop_scores : List Int
deriving Repr, DecidableEq

/-- Fresh node: `Node(name)` sets empty adjacency and zero degrees. -/
def Node.mkNew (name : String) : Node :=
  { name := name, neighbors := [], degree := 0, weighted_degree := 0,
    pop_scores := [], effective_pop_scores := [] }

/-- `Node.add_neighbor`: add `weight` to an existing adjacency entry
(weighted degree grows by `weight`), or create the entry (degree grows by
one, weighted degree by `weight`). -/
def Node.add_neighbor (nd : Node) (neighbor : String) (weight : Nat) : Node :=
  if (alookup neighbor nd.neighbors).isSome then
    { nd with neighbors := bumpVal neighbor weight nd.neighbors,
              weighted_degree := nd.weighted_degree + weight }
  else
    { nd with neighbors := nd.neighbors ++ [(neighbor, weight)],
              degree := nd.degree + 1,
              weighted_degree := nd.weighted_degree + weight }

/-- `Node.add_popularity_score`: append unless the score is `None`. -/
def Node.add_popularity_score (nd : Node) (score : Option Int) : Node :=
  match score with
  | none => nd
  | some s => { nd with pop_scores := nd.pop_scores ++ [s] }

/-- `Node.add_effective_popularity_score`: append unless the score is `None`. -/
def Node.add_effective_popularity_score (nd : Node) (score : Option Int) : Node :=
  match score with
  | none => nd
  | some s => { nd with effective_pop_scores := nd.effective_pop_scores ++ [s] }

/-- The graph: an insertion-ordered association list of nodes
(mirroring the Python dict `self.nodes`). -/
structure Graph where
  nodes : List (String × Node)
deriving Repr, DecidableEq

def Graph.empty : Graph := ⟨[]⟩

/-- `Graph.add_node`: insert a fresh node unless the name is present. -/
def Graph.add_node (g : Graph) (name : String) : Graph :=
  if (alookup name g.nodes).isSome then g
  else ⟨g.nodes ++ [(name, Node.mkNew name)]⟩

/-- `Graph.add_edge`: ensure both endpoints exist, then mutate each in turn
(`nodes[a].add_neighbor(b, w)` followed by `nodes[b].add_neighbor(a, w)`;
when `a = b` the same node is mutated twice in sequence). -/
def Graph.add_edge (g : Graph) (a b : String) (weight : Nat) : Graph :=
  let g1 := (g.add_node a).add_node b
  ⟨amodify b (fun nd => nd.add_neighbor a weight)
      (amodify a (fun nd => nd.add_neighbor b weight) g1.nodes)⟩

/-- Split an interaction key `"A-B"` at dashes, as `pair.split("-")` does.
Keys produced by the pipeline contain exactly one dash (character names
never contain a dash); on any other shape the Python code would raise
`ValueError`, and no claim exercises that shape. -/
def splitPair (pair : String) : Option (String × String) :=
  match pair.splitOn "-" with
  | [a, b] => some (a, b)
  | _ => none

/-- Inner loop shared by the graph builders: add one edge per
well-formed `"A-B"` key of an episode's interaction dict. -/
def Graph.addPairs (g : Graph) : List (String × Nat) → Graph
  | [] => g
  | (pair, w) :: rest =>
    match splitPair pair with
    | some (a, b) => (g.add_edge a b w).addPairs rest
    | none => g.addPairs rest

/-- `Graph.build_graph_from_interactions`: fold every episode's
interaction dict into the graph. -/
def Graph.build_graph_from_interactions
    (g : Graph) (episode_interactions : List (String × List (String × Nat))) : Graph :=
  episode_interactions.foldl (fun acc e => acc.addPairs e.2) g

/-- `Graph.add_popularity_by_presence`: for each episode with a popularity
score, add the score to every character present in the episode. -/
def Graph.add_popularity_by_presence
    (g : Graph) (episode_characters : List (String × List String))
    (episode_popularity : List (String × Int)) : Graph :=
  episode_characters.foldl
    (fun acc e =>
      match alookup e.1 episode_popularity with
      | none => acc
      | some score =>
        e.2.foldl
          (fun acc2 char =>
            let acc3 := acc2.add_node char
            ⟨amodify char (fun nd => nd.add_popularity_score (some score)) acc3.nodes⟩)
          acc)
    g

/-- Stable descending insertion by count, mirroring Python's stable
`sorted(..., key=lambda x: x[1], reverse=True)`. -/
def insertDescByVal (p : String × Nat) : List (String × Nat) → List (String × Nat)
  | [] => [p]
  | q :: rest => if q.2 ≤ p.2 then p :: q :: rest else q :: insertDescByVal p rest

def sortDescByVal : List (String × Nat) → List (String × Nat)
  | [] => []
  | p :: rest => insertDescByVal p (sortDescByVal rest)

/-- `Graph.add_popularity_by_wordcount`: per episode with a score, give the
score to the `top_k` characters by word count (effective popularity). -/
def Graph.add_popularity_by_wordcount
    (g : Graph) (episode_wordcount : List (String × List (String × Nat)))
    (episode_popularity : List (String × Int)) (top_k : Nat) : Graph :=
  episode_wordcount.foldl
    (fun acc e =>
      match alookup e.1 episode_popularity with
      | none => acc
      | some score =>
        let top_chars := ((sortDescByVal e.2).take top_k).map (·.1)
        top_chars.foldl
          (fun acc2 char =>
            let acc3 := acc2.add_node char
            ⟨amodify char (fun nd => nd.add_effective_popularity_score (some score)) acc3.nodes⟩)
          acc)
    g

/-- Season extraction `re.search(r"S(\d+)E", episode_id)`: leftmost `S`
followed by a nonempty digit run whose next character is `E`; the digit
run is the season group.  (Backtracking cannot shorten the run, since the
character after fewer digits is a digit, not `E`.) -/
def seasonSearch : List Char → Option Nat
  | [] => none
  | c :: rest =>
    if c = 'S' then
      let ds := rest.takeWhile Char.isDigit
      let rest2 := rest.dropWhile Char.isDigit
      if ds ≠ [] ∧ rest2.head? = some 'E' then
        some (ds.foldl (fun acc d => acc * 10 + (d.toNat - 48)) 0)
      else seasonSearch rest
    else seasonSearch rest

def seasonOf (episode_id : String) : Option Nat := seasonSearch episode_id.data

/-- `build_graph_by_seasons`: build a fresh graph from only the episodes
whose extracted season number is wanted. -/
def build_graph_by_seasons
    (episode_interactions : List (String × List (String × Nat)))
    (seasons : List Nat) : Graph :=
  episode_interactions.foldl
    (fun g e =>
      match seasonOf e.1 with
      | none => g
      | some s => if s ∈ seasons then g.addPairs e.2 else g)
    Graph.empty

/-- `Graph.shortest_path`'s adjacency: the neighbor names of `name`
(in dict insertion order), empty when the node is absent. -/
def Graph.nbrs (g : Graph) (name : String) : List String :=
  match alookup name g.nodes with
  | none => []
  | some nd => nd.neighbors.map (·.1)

/-- The adjacency entry stored for `y` on node `x`, when both exist. -/
def nbrWeight (g : Graph) (x y : String) : Option Nat :=
  (alookup x g.nodes).bind (fun nd => alookup y nd.neighbors)

/-- The `degree` field of node `x` (0 when absent). -/
def degOf (g : Graph) (x : String) : Nat :=
  ((alookup x g.nodes).map Node.degree).getD 0

/-- The `weighted_degree` field of node `x` (0 when absent). -/
def wdegOf (g : Graph) (x : String) : Nat :=
  ((alookup x g.nodes).map Node.weighted_degree).getD 0

/-- The public mutations of the graph model, for invariant claims that
quantify over arbitrary mutation sequences. -/
inductive GraphOp where
  | addEdge (a b : String) (w : Nat)
  | buildFromInteractions (tbl : List (String × List (String × Nat)))
  | popPresence (ec : List (String × List String)) (ep : List (String × Int))
  | popWordcount (ew : List (String × List (String × Nat))) (ep : List (String × Int)) (k : Nat)

def Graph.applyOp (g : Graph) : GraphOp → Graph
  | .addEdge a b w => g.add_edge a b w
  | .buildFromInteractions tbl => g.build_graph_from_interactions tbl
  | .popPresence ec ep => g.add_popularity_by_presence ec ep
  | .popWordcount ew ep k => g.add_popularity_by_wordcount ew ep k

/-- The invariant of a node: cached `weighted_degree` is the sum of the
adjacency weights, cached `degree` is the adjacency size. -/
def Node.consistent (nd : Node) : Prop :=
  nd.weighted_degree = (nd.neighbors.map (·.2)).sum ∧ nd.degree = nd.neighbors.length

def nodesConsistent (l : List (String × Node)) : Prop :=
  ∀ p ∈ l, Node.consistent p.2

def Graph.consistent (g : Graph) : Prop := nodesConsistent g.nodes

/-! ### Season-filtered graphs (claim C9) -/

/-- The weight of the stored edge between `x` and `y` (0 when absent). -/
def edgeW (g : Graph) (x y : String) : Nat := (nbrWeight g x y).getD 0

/-- An episode passes `build_graph_by_seasons`' filter when its extracted
season number is wanted. -/
def seasonKeep (ss : List Nat) (e : String × List (String × Nat)) : Bool :=
  match seasonOf e.1 with
  | none => false
  | some s => s ∈ ss

/-- The contribution of a single `add_edge a b w` call to the stored edge
weight at `(x, y)`. -/
def pairDelta (x y a b : String) (w : Nat) : Nat :=
  (if x = a ∧ y = b then w else 0) + (if x = b ∧ y = a then w else 0)

/-- Per-pair-list contribution of `addPairs` to the edge weight at `(x, y)`. -/
def pairContrib (x y : String) : List (String × Nat) → Nat
  | [] => 0
  | (pair, w) :: rest =>
    (match splitPair pair with
     | some (a, b) => pairDelta x y a b w
     | none => 0) + pairContrib x y rest

/-- Per-table contribution to the edge weight at `(x, y)`. -/
def tableContrib (x y : String) (tbl : List (String × List (String × Nat))) : Nat :=
  (tbl.map (fun e => pairContrib x y e.2)).sum

/-!
Part 2 embeds the script parser of `DataProcessing.py`
(`parse_episode_file` and `parse_episode_file_with_wordcount`).

Text is handled as `List Char`.  The regular expressions of the source are
compiled by hand into character-list scans; the accompanying doc comments
justify each against backtracking semantics.  `\s`, `[A-Z]` and `str`
case functions are modelled for ASCII text (the scripts are ASCII), and
`splitlines` is modelled as splitting at `'\n'` (the claims only exercise
LF-separated text).
-/

def isAsciiUpperCh (c : Char) : Bool := 'A' ≤ c && c ≤ 'Z'

def isAsciiLowerCh (c : Char) : Bool := 'a' ≤ c && c ≤ 'z'

def isAsciiAlphaCh (c : Char) : Bool := isAsciiUpperCh c || isAsciiLowerCh c

/-- Python regex `\s` and `str.strip` whitespace, restricted to ASCII:
space, tab, newline, vertical tab, form feed, carriage return. -/
def isPySpaceCh (c : Char) : Bool :=
  c = ' ' || c = '\t' || c = '\n' || c = '\r' || c.toNat = 11 || c.toNat = 12

/-- The character class `[a-zA-Z\s.']` of both speaker-prefix regexes. -/
def inClassC (c : Char) : Bool :=
  isAsciiAlphaCh c || isPySpaceCh c || c = '.' || c = '\''

/-- `str.strip()`. -/
def pyStrip (l : List Char) : List Char :=
  ((l.dropWhile isPySpaceCh).reverse.dropWhile isPySpaceCh).reverse

/-- `str.lower()` (ASCII). -/
def pyLower (l : List Char) : List Char := l.map Char.toLower

/-- `str.upper()` (ASCII). -/
def pyUpper (l : List Char) : List Char := l.map Char.toUpper

/-- Helper for `str.split()` (whitespace words): accumulate the current
word in reverse. -/
def wordsAux : List Char → List Char → List (List Char)
  | [], acc => if acc = [] then [] else [acc.reverse]
  | c :: rest, acc =>
    if isPySpaceCh c then
      if acc = [] then wordsAux rest [] else acc.reverse :: wordsAux rest []
    else wordsAux rest (c :: acc)

/-- `str.split()`: maximal runs of non-whitespace. -/
def splitWs (l : List Char) : List (List Char) := wordsAux l []

/-- Helper for splitting at a separator character, keeping empty pieces
(Python `str.split(sep)`). -/
def splitChAux (sep : Char) : List Char → List Char → List (List Char)
  | [], acc => [acc.reverse]
  | c :: rest, acc =>
    if c = sep then acc.reverse :: splitChAux sep rest []
    else splitChAux sep rest (c :: acc)

def splitCh (sep : Char) (l : List Char) : List (List Char) := splitChAux sep l []

def listStartsWith : List Char → List Char → Bool
  | [], _ => true
  | _ :: _, [] => false
  | p :: ps, c :: cs => p = c && listStartsWith ps cs

/-- Python's `sub in s` substring test. -/
def listHasSub (sub : List Char) (l : List Char) : Bool :=
  if listStartsWith sub l then true
  else
    match l with
    | [] => false
    | _ :: rest => listHasSub sub rest

/-- `str.title()` (ASCII): uppercase a letter that follows a non-letter,
lowercase a letter that follows a letter. -/
def pyTitleAux : Bool → List Char → List Char
  | _, [] => []
  | prev, c :: rest =>
    if isAsciiAlphaCh c then
      (if prev then c.toLower else c.toUpper) :: pyTitleAux true rest
    else c :: pyTitleAux false rest

def pyTitle (l : List Char) : List Char := pyTitleAux false l

/-- Python regex word character `[a-zA-Z0-9_]` (ASCII). -/
def isWordCh (c : Char) : Bool := isAsciiAlphaCh c || c.isDigit || c = '_'

/-- `re.sub(r"\band\b|&", ",", raw)` on an already-lowercased string:
replace `&` and the standalone word `and` by a comma.  The flag tracks
whether the previous original character was a word character (the `\b`
boundary on the left); the right boundary checks the next character. -/
def subAndAmp : Bool → List Char → List Char
  | _, [] => []
  | prev, 'a' :: 'n' :: 'd' :: rest =>
    if !prev && !((rest.head?.map isWordCh).getD false) then
      ',' :: subAndAmp true rest
    else 'a' :: subAndAmp true ('n' :: 'd' :: rest)
  | _, c :: rest =>
    if c = '&' then ',' :: subAndAmp false rest
    else c :: subAndAmp (isWordCh c) rest

/-- `ACTION_WORDS` from `DataProcessing.py`. -/
def ACTION_WORDS : List String :=
  ["says", "shakes", "walks", "laughs", "enters", "exits",
   "shouts", "yells", "cries", "looks", "stares", "turns",
   "moves", "explains", "asks", "replies", "continues",
   "tells", "answers", "runs", "steps", "smiles", "nods",
   "starts", "storms", "coming", "starting", "raises",
   "have", "screaming", "to", "cutting", "at", "with",
   "opens", "looking", "has", "gets"]

/-- `GROUP_SPEAKER_PHRASES` from `DataProcessing.py`. -/
def GROUP_SPEAKER_PHRASES : List String :=
  ["all", "everyone", "guys", "both",
   "the guys", "girls", "girl", "boys", "boy",
   "guy", "women", "woman", "men", "man"]

/-- `GROUP_INDICATORS` from `DataProcessing.py`. -/
def GROUP_INDICATORS : List String :=
  ["girls", "girl", "boys", "boy", "guys",
   "guy", "crowd", "people", "kids", "kid", "friend",
   "friends", "family", "parents", "neighbors",
   "roommates", "siblings", "child", "children",
   "women", "men", "directed", "extra", "everybody",
   "everyone", "together", "written", "produced",
   "transcribed", "hosted"]

/-- `GENERIC_ROLES` from `DataProcessing.py`. -/
def GENERIC_ROLES : List String :=
  ["customer", "customers", "receptionist",
   "receptionists", "nurse", "waiter", "waiters",
   "waitress", "teacher", "clerk", "fireman",
   "detector", "tag", "boss", "tourist", "gambler",
   "dealer", "attendant", "croupier", "guard",
   "lurker", "director", "cashier", "message",
   "critic", "interviewer", "doctor", "tv", "story",
   "writer", "teleplay", "note"]

/-- `NAME_MAP` from `DataProcessing.py`. -/
def NAME_MAP : List (String × String) :=
  [("Chan", "Chandler"), ("CHAN", "Chandler"),
   ("Rach", "Rachel"), ("RACH", "Rachel"),
   ("Rahcel", "Rachel"),
   ("Mnca", "Monica"), ("MNCA", "Monica"),
   ("Phoe", "Phoebe"), ("PHOE", "Phoebe")]

/-- `MAIN_CHARS` from `parse_episode_file`. -/
def MAIN_CHARS : List String :=
  ["Monica", "Rachel", "Phoebe", "Ross", "Chandler",
   "Joey", "Ursula", "Carol", "Susan", "Janice"]

/-- `split_multi_speaker`: lowercase and strip; drop group-speaker
phrases; replace `and`/`&` by commas; split at commas; keep non-blank,
title-cased pieces. -/
def split_multi_speaker (raw : List Char) : List String :=
  let raw1 := pyLower (pyStrip raw)
  if GROUP_SPEAKER_PHRASES.contains (String.mk raw1) then []
  else
    let rawNorm := subAndAmp false raw1
    (splitCh ',' rawNorm).filterMap (fun p =>
      let ps := pyStrip p
      if ps = [] then none else some (String.mk (pyTitle ps)))

/-- `NAME_MAP.get(speaker.upper(), speaker.title())`. -/
def normalizeSpeaker (nm : List (String × String)) (speaker : String) : String :=
  match alookup (String.mk (pyUpper speaker.data)) nm with
  | some v => v
  | none => String.mk (pyTitle speaker.data)

/-- `re.match(r"^([A-Z][a-zA-Z\s.']+)(?=[:(])", line)`, returning group 1.
The group is greedy over class `C = [a-zA-Z\s.']`; since `:` and `(` are
not in `C`, backtracking can only satisfy the lookahead at the end of the
maximal `C`-run, so the group is exactly the maximal run. -/
def normalMatch1 (line : List Char) : Option (List Char) :=
  match line with
  | [] => none
  | c :: rest =>
    if isAsciiUpperCh c then
      let run := rest.takeWhile inClassC
      let after := rest.dropWhile inClassC
      if run ≠ [] ∧ (after.head? = some ':' ∨ after.head? = some '(') then
        some (c :: run)
      else none
    else none

/-- `re.match(r"^([A-Z][a-zA-Z\s.']+)(?:\s*\([^)]*\))?\s*:\s*(.*)$", line)`,
returning groups 1 and 2.  After the greedy group 1 (the maximal `C`-run,
whose following character is not whitespace and not in `C`), the optional
group requires a literal `(`, then `[^)]*` runs to the first `)`, then
whitespace and the colon; shortening group 1 can never expose another
`(` or `:` because those are outside `C`. -/
def normalMatch2 (line : List Char) : Option (List Char × List Char) :=
  match line with
  | [] => none
  | c :: rest =>
    if isAsciiUpperCh c then
      let run := rest.takeWhile inClassC
      let after := rest.dropWhile inClassC
      if run = [] then none
      else
        match after with
        | ':' :: tail => some (c :: run, tail.dropWhile isPySpaceCh)
        | '(' :: tail =>
          match tail.dropWhile (fun ch => ch ≠ ')') with
          | ')' :: tail2 =>
            (match tail2.dropWhile isPySpaceCh with
             | ':' :: tail3 => some (c :: run, tail3.dropWhile isPySpaceCh)
             | _ => none)
          | _ => none
        | _ => none
    else none

/-- Prefixes skipped as script information (`written by` etc., compared
on the lowercased line). -/
def SKIP_STARTS : List (List Char) :=
  ["written by".data, "story by".data, "teleplay by".data]

/-- Scene-change patterns `^\[(Scene|Time|Cut|Commercial|Closing)`. -/
def SCENE_STARTS : List (List Char) :=
  ["[Scene".data, "[Time".data, "[Cut".data, "[Commercial".data, "[Closing".data]

/-- The fallback block shared by both parsers: a line containing a colon
has its pre-colon part stripped and lowercased; whole-prefix matches of
group-speaker phrases or generic roles are rejected; a word-level match
of a group indicator (after apostrophe removal) is rejected; otherwise the
unique principal name occurring as a substring is the speaker. -/
def fallbackResolve (l : List Char) : Option String :=
  if l.contains ':' then
    let pre := pyStrip (l.takeWhile (fun ch => ch ≠ ':'))
    let lp := pyLower pre
    if GROUP_SPEAKER_PHRASES.contains (String.mk lp) then none
    else if GENERIC_ROLES.contains (String.mk lp) then none
    else
      let wordsNoAp := splitWs (lp.filter (fun ch => ch ≠ '\''))
      if wordsNoAp.any (fun w => GROUP_INDICATORS.contains (String.mk w)) then none
      else
        match MAIN_CHARS.filter (fun name => listHasSub (pyLower name.data) lp) with
        | [c] => some c
        | _ => none
  else none

/-- The effect of one line on the scene state of `parse_episode_file`:
a scene flush or a (possibly empty) list of characters to add. -/
inductive LineAct where
  | flush
  | addChars (cs : List String)
deriving Repr, DecidableEq

/-- One line of `parse_episode_file`, transcribed check by check. -/
def lineAct1 (nm : List (String × String)) (rawLine : List Char) : LineAct :=
  let l := pyStrip rawLine
  if l = [] then .addChars []
  else if SKIP_STARTS.any (fun p => listStartsWith p (pyLower l)) then .addChars []
  else if l.head? = some '(' then .addChars []
  else if SCENE_STARTS.any (fun p => listStartsWith p l) then .flush
  else
    match normalMatch1 l with
    | some g1 =>
      let pre := pyStrip g1
      let lp := pyLower pre
      if GROUP_SPEAKER_PHRASES.contains (String.mk lp) then .addChars []
      else if GENERIC_ROLES.contains (String.mk lp) then .addChars []
      else
        let wordsNoAp := splitWs (lp.filter (fun ch => ch ≠ '\''))
        if wordsNoAp.any (fun w => GROUP_SPEAKER_PHRASES.contains (String.mk w)) then .addChars []
        else if wordsNoAp.any (fun w => GENERIC_ROLES.contains (String.mk w)) then .addChars []
        else if wordsNoAp.any (fun w => GROUP_INDICATORS.contains (String.mk w)) then .addChars []
        else if wordsNoAp.any (fun w => ACTION_WORDS.contains (String.mk w)) then
          .addChars (match fallbackResolve l with | some c => [c] | none => [])
        else
          .addChars ((split_multi_speaker pre).map (normalizeSpeaker nm))
    | none =>
      .addChars (match fallbackResolve l with | some c => [c] | none => [])

/-- `set.add` on an insertion-ordered duplicate-free list. -/
def insertChar (s : List String) (c : String) : List String :=
  if c ∈ s then s else s ++ [c]

/-- Apply a scene action to `(scenes, current_scene)`. -/
def applyAct (st : List (List String) × List String) : LineAct → List (List String) × List String
  | .flush => (if st.2 ≠ [] then st.1 ++ [st.2] else st.1, [])
  | .addChars cs => (st.1, cs.foldl insertChar st.2)

/-- String comparison used by Python `sorted` on names: lexicographic by
code point, which is Lean's `String` order. -/
def insertSorted (x : String) : List String → List String
  | [] => [x]
  | y :: rest => if x ≤ y then x :: y :: rest else y :: insertSorted x rest

def sortStrings (l : List String) : List String := l.foldr insertSorted []

/-- `itertools.combinations(sorted(scene), 2)` in generation order. -/
def combos2 : List String → List (String × String)
  | [] => []
  | x :: rest => rest.map (fun y => (x, y)) ++ combos2 rest

def pairsOf (scene : List String) : List (String × String) := combos2 (sortStrings scene)

/-- `Counter` increment: bump an existing key or append it with count 1
(dict insertion order). -/
def bumpCount (key : String × String) : List ((String × String) × Nat) → List ((String × String) × Nat)
  | [] => [(key, 1)]
  | (k, v) :: rest => if k = key then (k, v + 1) :: rest else (k, v) :: bumpCount key rest

/-- The interaction counter built from the scene list. -/
def interactionsOf (scenes : List (List String)) : List ((String × String) × Nat) :=
  scenes.foldl (fun acc sc => (pairsOf sc).foldl (fun a p => bumpCount p a) acc) []

/-- `parse_episode_file`, parametrised by the alias table (instantiated
with `NAME_MAP` below). -/
def parseCore1 (nm : List (String × String)) (text : String) :
    List (List String) × List ((String × String) × Nat) :=
  let lines := splitCh '\n' text.data
  let st := lines.foldl (fun st line => applyAct st (lineAct1 nm line)) ([], [])
  let scenes := if st.2 ≠ [] then st.1 ++ [st.2] else st.1
  (scenes, interactionsOf scenes)

def parse_episode_file (text : String) :
    List (List String) × List ((String × String) × Nat) :=
  parseCore1 NAME_MAP text

/-- The effect of one line in `parse_episode_file_with_wordcount`.
`content` is the variable of the source that survives across lines and
is read by the fallback (`len(content)` there is the number of
characters, not words).  A successful speaker-pattern match always
overwrites `content`, even on lines that are then skipped. -/
inductive LineAct2 where
  | skip
  | flush
  | addSpeakers (cs : List String) (content : List Char)
  | matchedSkip (content : List Char)
  | matchedFallback (content : List Char) (add : Option String)
  | fallbackOnly (add : Option String)
deriving Repr, DecidableEq

/-- One line of `parse_episode_file_with_wordcount`, transcribed check by
check; it differs from `lineAct1` in the speaker regex (`normalMatch2`)
and in carrying content/word-count effects. -/
def lineAct2 (rawLine : List Char) : LineAct2 :=
  let l := pyStrip rawLine
  if l = [] then .skip
  else if SKIP_STARTS.any (fun p => listStartsWith p (pyLower l)) then .skip
  else if l.head? = some '(' then .skip
  else if SCENE_STARTS.any (fun p => listStartsWith p l) then .flush
  else
    match normalMatch2 l with
    | some (g1, g2) =>
      let pre := pyStrip g1
      let content := pyStrip g2
      let lp := pyLower pre
      if GROUP_SPEAKER_PHRASES.contains (String.mk lp) then .matchedSkip content
      else if GENERIC_ROLES.contains (String.mk lp) then .matchedSkip content
      else
        let wordsNoAp := splitWs (lp.filter (fun ch => ch ≠ '\''))
        if wordsNoAp.any (fun w => GROUP_SPEAKER_PHRASES.contains (String.mk w)) then .matchedSkip content
        else if wordsNoAp.any (fun w => GENERIC_ROLES.contains (String.mk w)) then .matchedSkip content
        else if wordsNoAp.any (fun w => GROUP_INDICATORS.contains (String.mk w)) then .matchedSkip content
        else if wordsNoAp.any (fun w => ACTION_WORDS.contains (String.mk w)) then
          .matchedFallback content (fallbackResolve l)
        else
          .addSpeakers ((split_multi_speaker pre).map (normalizeSpeaker NAME_MAP)) content
    | none =>
      .fallbackOnly (fallbackResolve l)

/-- `word_count[c] = word_count.get(c, 0) + n` (dict insertion order). -/
def wcBump (wc : List (String × Nat)) (c : String) (n : Nat) : List (String × Nat) :=
  match wc with
  | [] => [(c, n)]
  | (k, v) :: rest => if k = c then (k, v + n) :: rest else (k, v) :: wcBump rest c n

/-- Word-count parser state: scenes, current scene, word counts, the
`content` local of the source (`none` while it has never been assigned),
and `err`, set when the colon-fallback evaluates `len(content)` with
`content` still unassigned — the `UnboundLocalError` the source raises
at `DataProcessing.py:309`.  Once raised, the exception propagates and
the function never returns, so `err` is absorbing. -/
structure PState2 where
  scenes : List (List String)
  cur : List String
  wc : List (String × Nat)
  content : Option (List Char)
  err : Bool
deriving Repr, DecidableEq

/-- Apply one `LineAct2`.  In the speaker branch every speaker is added
to the scene and credited `len(content.split())` words; in the fallback
branch the single speaker is credited `len(content)` characters, raising
`UnboundLocalError` (the `err` state) when `content` was never
assigned. -/
def applyAct2 (st : PState2) (a : LineAct2) : PState2 :=
  if st.err then st
  else
    match a with
    | .skip => st
    | .flush =>
      { st with scenes := if st.cur ≠ [] then st.scenes ++ [st.cur] else st.scenes, cur := [] }
    | .addSpeakers cs ct =>
      let n := (splitWs ct).length
      let upd := cs.foldl (fun (p : List String × List (String × Nat)) c =>
        (insertChar p.1 c, wcBump p.2 c n)) (st.cur, st.wc)
      { st with cur := upd.1, wc := upd.2, content := some ct }
    | .matchedSkip ct => { st with content := some ct }
    | .matchedFallback ct add =>
      (match add with
       | some c =>
         { st with cur := insertChar st.cur c, wc := wcBump st.wc c ct.length,
                   content := some ct }
       | none => { st with content := some ct })
    | .fallbackOnly add =>
      (match add with
       | some c =>
         (match st.content with
          | some ct => { st with cur := insertChar st.cur c, wc := wcBump st.wc c ct.length }
          | none => { st with err := true })
       | none => st)

/-- `parse_episode_file_with_wordcount`; `none` models the
`UnboundLocalError` raised when a colon-fallback speaker resolution
happens before any speaker-pattern match has assigned `content`. -/
def parse_episode_file_with_wordcount (text : String) :
    Option (List (List String) × List ((String × String) × Nat) × List (String × Nat)) :=
  let lines := splitCh '\n' text.data
  let st := lines.foldl (fun st line => applyAct2 st (lineAct2 line))
    ⟨[], [], [], none, false⟩
  if st.err then none
  else
    let scenes := if st.cur ≠ [] then st.scenes ++ [st.cur] else st.scenes
    some (scenes, interactionsOf scenes, st.wc)

/-- The scene-level effect of a `LineAct2`. -/
def sceneActOf : LineAct2 → LineAct
  | .skip => .addChars []
  | .flush => .flush
  | .addSpeakers cs _ => .addChars cs
  | .matchedSkip _ => .addChars []
  | .matchedFallback _ add => .addChars (match add with | some c => [c] | none => [])
  | .fallbackOnly add => .addChars (match add with | some c => [c] | none => [])

/-! ### The interaction counter (claim C2) -/

/-- Occurrence count of a pair in a pair list. -/
def countOcc (k : String × String) : List (String × String) → Nat
  | [] => 0
  | p :: rest => (if p = k then 1 else 0) + countOcc k rest

/-- Occurrence count of a string in a string list. -/
def countStr (b : String) : List String → Nat
  | [] => 0
  | y :: rest => (if y = b then 1 else 0) + countStr b rest

/-- Scene-state invariant: all flushed scenes and the current scene are
duplicate-free (they model Python sets). -/
def sceneInv (st : List (List String) × List String) : Prop :=
  (∀ sc ∈ st.1, sc.Nodup) ∧ st.2.Nodup

/-! ### Breadth-first shortest paths (claim C5) -/

/-- Inner loop of the BFS: mark and enqueue the unvisited neighbors of
the popped node, appending in adjacency order (`visited.add` plus
`queue.append` of the Python code). -/
def enqueueNbrs (path : List String) :
    List String → List (String × List String) → List String →
      List (String × List String) × List String
  | [], q, v => (q, v)
  | n :: ns, q, v =>
    if n ∈ v then enqueueNbrs path ns q v
    else enqueueNbrs path ns (q ++ [(n, path ++ [n])]) (v ++ [n])

/-- The BFS `while queue:` loop of `Graph.shortest_path`.  The fuel only
bounds the iteration count; `bfsFuel` below always suffices (each
iteration pops one entry, and every enqueue moves a fresh name into
`visited`). -/
def bfsLoop (g : Graph) (e : String) :
    Nat → List (String × List String) → List String → Option (List String)
  | 0, _, _ => none
  | _ + 1, [], _ => none
  | fuel + 1, (curr, path) :: rest, visited =>
    if curr = e then some path
    else
      let qv := enqueueNbrs path (g.nbrs curr) rest visited
      bfsLoop g e fuel qv.1 qv.2

/-- Every name appearing in some adjacency list. -/
def allNbrNames (g : Graph) : List String :=
  (g.nodes.map (fun p => p.2.neighbors.map (·.1))).flatten

def bfsFuel (g : Graph) : Nat := 2 + (allNbrNames g).length

/-- `Graph.shortest_path`: `None` unless both endpoints are nodes, then
BFS from `start`. -/
def Graph.shortest_path (g : Graph) (start e : String) : Option (List String) :=
  if (alookup start g.nodes).isSome ∧ (alookup e g.nodes).isSome then
    bfsLoop g e (bfsFuel g) [(start, [start])] [start]
  else none

/-- `y` is a stored neighbor of `x`. -/
def adjacent (g : Graph) (x y : String) : Prop := y ∈ g.nbrs x

/-- A walk from `s` to `t` along stored adjacencies, as a nonempty name
sequence. -/
def validPath (g : Graph) (s t : String) (p : List String) : Prop :=
  p ≠ [] ∧ p.head? = some s ∧ p.getLast? = some t ∧ List.Chain' (adjacent g) p

/-- Universe of names the BFS can ever visit. -/
def bfsU (g : Graph) (s : String) : List String := (s :: allNbrNames g).dedup

/-- The BFS loop invariant: queue entries hold valid minimal paths to
visited nodes; visited names are distinct and within the universe; queue
path lengths are sorted and within one of each other; fully processed
nodes have all neighbors visited; the target is never fully processed;
and any path to an unvisited node is longer than the head entry's. -/
def bfsInv (g : Graph) (s e : String)
    (q : List (String × List String)) (v : List String) : Prop :=
  (∀ cp ∈ q, validPath g s cp.1 cp.2) ∧
  (∀ cp ∈ q, ∀ p', validPath g s cp.1 p' → cp.2.length ≤ p'.length) ∧
  (∀ cp ∈ q, cp.1 ∈ v) ∧
  v.Nodup ∧
  v ⊆ bfsU g s ∧
  s ∈ v ∧
  List.Sorted (· ≤ ·) (q.map (fun cp => cp.2.length)) ∧
  (∀ cp ∈ q, ∀ dq ∈ q, cp.2.length ≤ dq.2.length + 1) ∧
  (∀ x ∈ v, x ∉ q.map (fun cp => cp.1) → ∀ y ∈ g.nbrs x, y ∈ v) ∧
  (e ∈ v → e ∈ q.map (fun cp => cp.1)) ∧
  (∀ hd, q.head? = some hd → ∀ x, x ∉ v → ∀ p', validPath g s x p' →
    hd.2.length + 1 ≤ p'.length)

/-! ### Association-list lemmas -/

theorem alookup_append {β : Type} (x : String) (l1 l2 : List (String × β)) :
    alookup x (l1 ++ l2) =
      match alookup x l1 with
      | some v => some v
      | none => alookup x l2 := by
  induction l1 with
  | nil => simp [alookup]
  | cons p rest ih =>
    obtain ⟨k, v⟩ := p
    by_cases h : k = x <;> simp [alookup, h, ih]

theorem alookup_amodify {β : Type} (key x : String) (f : β → β) (l : List (String × β)) :
    alookup x (amodify key f l) =
      if key = x then (alookup x l).map f else alookup x l := by
  induction l with
  | nil => simp [alookup, amodify]
  | cons p rest ih =>
    obtain ⟨k, v⟩ := p
    by_cases hk : k = key
    · subst hk
      by_cases hx : k = x <;> simp [alookup, amodify, hx, ih]
    · by_cases hx : k = x
      · subst hx
        have : ¬ key = k := fun h => hk h.symm
        simp [alookup, amodify, hk, this]
      · simp [alookup, amodify, hk, hx, ih]

theorem alookup_bumpVal (key x : String) (w : Nat) (l : List (String × Nat)) :
    alookup x (bumpVal key w l) =
      if key = x then (alookup x l).map (· + w) else alookup x l := by
  induction l with
  | nil => simp [alookup, bumpVal]
  | cons p rest ih =>
    obtain ⟨k, v⟩ := p
    by_cases hk : k = key
    · subst hk
      by_cases hx : k = x <;> simp [alookup, bumpVal, hx, ih]
    · by_cases hx : k = x
      · subst hx
        have : ¬ key = k := fun h => hk h.symm
        simp [alookup, bumpVal, hk, this]
      · simp [alookup, bumpVal, hk, hx, ih]

theorem sum_bumpVal (key : String) (w : Nat) (l : List (String × Nat))
    (h : (alookup key l).isSome) :
    ((bumpVal key w l).map (·.2)).sum = (l.map (·.2)).sum + w := by
  induction l with
  | nil => simp [alookup] at h
  | cons p rest ih =>
    obtain ⟨k, v⟩ := p
    by_cases hk : k = key
    · simp [bumpVal, hk]
      ring
    · simp [alookup, hk] at h
      simp [bumpVal, hk, ih h]
      ring

theorem length_bumpVal (key : String) (w : Nat) (l : List (String × Nat)) :
    (bumpVal key w l).length = l.length := by
  induction l with
  | nil => rfl
  | cons p rest ih =>
    obtain ⟨k, v⟩ := p
    by_cases hk : k = key <;> simp [bumpVal, hk, ih]

/-! ### Node-level facts about `add_neighbor` -/

theorem add_neighbor_lookup (nd : Node) (b y : String) (w : Nat) :
    alookup y (nd.add_neighbor b w).neighbors =
      if b = y then some (((alookup b nd.neighbors).getD 0) + w)
      else alookup y nd.neighbors := by
  unfold Node.add_neighbor
  by_cases h : (alookup b nd.neighbors).isSome
  · rw [if_pos h]
    simp only
    rw [alookup_bumpVal]
    obtain ⟨v, hv⟩ := Option.isSome_iff_exists.mp h
    by_cases hby : b = y
    · subst hby
      simp [hv]
    · simp [hby]
  · rw [if_neg h]
    simp only
    rw [alookup_append]
    have hb : alookup b nd.neighbors = none := by
      cases hx : alookup b nd.neighbors with
      | none => rfl
      | some v => rw [hx] at h; simp at h
    by_cases hby : b = y
    · subst hby
      simp [alookup, hb]
    · cases hx : alookup y nd.neighbors with
      | none => simp [hx, alookup, hby]
      | some v => simp [hx, hby]

theorem add_neighbor_degree (nd : Node) (b : String) (w : Nat) :
    (nd.add_neighbor b w).degree =
      if (alookup b nd.neighbors).isSome then nd.degree else nd.degree + 1 := by
  unfold Node.add_neighbor
  by_cases h : (alookup b nd.neighbors).isSome
  · rw [if_pos h, if_pos h]
  · rw [if_neg h, if_neg h]

theorem add_neighbor_wdeg (nd : Node) (b : String) (w : Nat) :
    (nd.add_neighbor b w).weighted_degree = nd.weighted_degree + w := by
  unfold Node.add_neighbor
  by_cases h : (alookup b nd.neighbors).isSome
  · rw [if_pos h]
  · rw [if_neg h]

theorem add_neighbor_consistent (nd : Node) (b : String) (w : Nat)
    (h : nd.consistent) : (nd.add_neighbor b w).consistent := by
  obtain ⟨hw, hd⟩ := h
  unfold Node.add_neighbor
  by_cases hb : (alookup b nd.neighbors).isSome
  · rw [if_pos hb]
    exact ⟨by simp [hw, sum_bumpVal b w _ hb], by simp [hd, length_bumpVal]⟩
  · rw [if_neg hb]
    exact ⟨by simp [hw], by simp [hd]⟩

/-! ### Graph-level consistency (claim C3) -/

theorem nodesConsistent_amodify (key : String) (f : Node → Node)
    (l : List (String × Node)) (hl : nodesConsistent l)
    (hf : ∀ nd, nd.consistent → (f nd).consistent) :
    nodesConsistent (amodify key f l) := by
  induction l with
  | nil => intro p hp; simp [amodify] at hp
  | cons p rest ih =>
    obtain ⟨k, v⟩ := p
    have hv : Node.consistent v := hl (k, v) (by simp)
    have hrest : nodesConsistent rest := fun q hq => hl q (by simp [hq])
    intro q hq
    by_cases hk : k = key
    · simp only [amodify, if_pos hk, List.mem_cons] at hq
      rcases hq with hq | hq
      · subst hq; exact hf v hv
      · exact hrest q hq
    · simp only [amodify, if_neg hk, List.mem_cons] at hq
      rcases hq with hq | hq
      · subst hq; exact hv
      · exact ih hrest q hq

theorem add_node_consistent (g : Graph) (n : String) (h : g.consistent) :
    (g.add_node n).consistent := by
  unfold Graph.add_node
  by_cases hn : (alookup n g.nodes).isSome
  · simpa [hn]
  · simp only [hn, if_false]
    intro p hp
    simp at hp
    rcases hp with hp | hp
    · exact h p hp
    · subst hp; exact ⟨rfl, rfl⟩

theorem add_edge_consistent (g : Graph) (a b : String) (w : Nat)
    (h : g.consistent) : (g.add_edge a b w).consistent := by
  unfold Graph.add_edge
  have h1 : ((g.add_node a).add_node b).consistent :=
    add_node_consistent _ b (add_node_consistent g a h)
  exact nodesConsistent_amodify b _ _
    (nodesConsistent_amodify a _ _ h1 (fun nd hnd => add_neighbor_consistent nd b w hnd))
    (fun nd hnd => add_neighbor_consistent nd a w hnd)

theorem addPairs_consistent (g : Graph) (l : List (String × Nat))
    (h : g.consistent) : (g.addPairs l).consistent := by
  induction l generalizing g with
  | nil => exact h
  | cons p rest ih =>
    obtain ⟨pair, w⟩ := p
    unfold Graph.addPairs
    cases hs : splitPair pair with
    | none => exact ih _ h
    | some ab => exact ih _ (add_edge_consistent g ab.1 ab.2 w h)

theorem foldl_consistent {α : Type} (f : Graph → α → Graph) (l : List α) (g : Graph)
    (hf : ∀ acc x, acc.consistent → (f acc x).consistent)
    (h : g.consistent) : (l.foldl f g).consistent := by
  induction l generalizing g with
  | nil => exact h
  | cons x rest ih => exact ih _ (hf g x h)

theorem add_pop_score_consistent (nd : Node) (s : Option Int)
    (h : nd.consistent) : (nd.add_popularity_score s).consistent := by
  cases s <;> simpa [Node.add_popularity_score] using h

theorem add_eff_pop_score_consistent (nd : Node) (s : Option Int)
    (h : nd.consistent) : (nd.add_effective_popularity_score s).consistent := by
  cases s <;> simpa [Node.add_effective_popularity_score] using h

theorem applyOp_consistent (g : Graph) (op : GraphOp)
    (h : g.consistent) : (g.applyOp op).consistent := by
  cases op with
  | addEdge a b w => exact add_edge_consistent g a b w h
  | buildFromInteractions tbl =>
    exact foldl_consistent _ tbl g (fun acc e hacc => addPairs_consistent acc e.2 hacc) h
  | popPresence ec ep =>
    refine foldl_consistent _ ec g (fun acc e hacc => ?_) h
    cases alookup e.1 ep with
    | none => exact hacc
    | some score =>
      simp only
      refine foldl_consistent _ e.2 acc (fun acc2 char hacc2 => ?_) hacc
      exact nodesConsistent_amodify char _ _ (add_node_consistent acc2 char hacc2)
        (fun nd hnd => add_pop_score_consistent nd (some score) hnd)
  | popWordcount ew ep k =>
    refine foldl_consistent _ ew g (fun acc e hacc => ?_) h
    cases alookup e.1 ep with
    | none => exact hacc
    | some score =>
      simp only
      refine foldl_consistent _ _ acc (fun acc2 char hacc2 => ?_) hacc
      exact nodesConsistent_amodify char _ _ (add_node_consistent acc2 char hacc2)
        (fun nd hnd => add_eff_pop_score_consistent nd (some score) hnd)

/-- C3: after every sequence of public graph mutations (edge insertions,
bulk interaction builds, popularity additions) starting from the empty
graph, every node's `weighted_degree` field equals the sum of its
adjacency weights and its `degree` field equals the adjacency size. -/
theorem claim_C3_degree_invariant (ops : List GraphOp) :
    ∀ p ∈ (ops.foldl Graph.applyOp Graph.empty).nodes,
      p.2.weighted_degree = (p.2.neighbors.map (·.2)).sum ∧
      p.2.degree = p.2.neighbors.length := by
  have h0 : Graph.consistent Graph.empty := by
    intro p hp
    simp [Graph.empty] at hp
  exact foldl_consistent Graph.applyOp ops Graph.empty
    (fun acc op h => applyOp_consistent acc op h) h0

/-- Witness for C3 on a one-edge mutation sequence. -/
theorem claim_C3_witness :
    ((("A", (⟨"A", [("B", 2)], 1, 2, [], []⟩ : Node)) ∈
      (([GraphOp.addEdge "A" "B" 2]).foldl Graph.applyOp Graph.empty).nodes) ∧
    ((⟨"A", [("B", 2)], 1, 2, [], []⟩ : Node).weighted_degree =
        (([("B", 2)] : List (String × Nat)).map (·.2)).sum ∧
      (⟨"A", [("B", 2)], 1, 2, [], []⟩ : Node).degree =
        ([("B", 2)] : List (String × Nat)).length)) :=
  ⟨by decide,
    claim_C3_degree_invariant [GraphOp.addEdge "A" "B" 2]
      ("A", ⟨"A", [("B", 2)], 1, 2, [], []⟩) (by decide)⟩

/-! ### Pointwise effect of `add_edge` (claims C4 and C10) -/

theorem alookup_add_node (g : Graph) (n x : String) :
    alookup x (g.add_node n).nodes =
      if x = n then some ((alookup n g.nodes).getD (Node.mkNew n))
      else alookup x g.nodes := by
  unfold Graph.add_node
  by_cases h : (alookup n g.nodes).isSome
  · rw [if_pos h]
    obtain ⟨v, hv⟩ := Option.isSome_iff_exists.mp h
    by_cases hx : x = n
    · subst hx; simp [hv]
    · simp [hx]
  · rw [if_neg h]
    have hn : alookup n g.nodes = none := by
      cases hc : alookup n g.nodes with
      | none => rfl
      | some v => rw [hc] at h; simp at h
    simp only
    rw [alookup_append]
    by_cases hx : x = n
    · subst hx; simp [hn, alookup]
    · cases hc : alookup x g.nodes with
      | none => simp [hc, alookup, hx, Ne.symm hx]
      | some v => simp [hc, hx]

theorem getD_mkNew_wdeg (g : Graph) (x : String) :
    ((alookup x g.nodes).getD (Node.mkNew x)).weighted_degree = wdegOf g x := by
  unfold wdegOf
  cases alookup x g.nodes <;> simp [Node.mkNew]

theorem getD_mkNew_degree (g : Graph) (x : String) :
    ((alookup x g.nodes).getD (Node.mkNew x)).degree = degOf g x := by
  unfold degOf
  cases alookup x g.nodes <;> simp [Node.mkNew]

theorem getD_mkNew_nbr (g : Graph) (x y : String) :
    alookup y ((alookup x g.nodes).getD (Node.mkNew x)).neighbors = nbrWeight g x y := by
  unfold nbrWeight
  cases alookup x g.nodes <;> simp [Node.mkNew, alookup]

theorem alookup_add_edge_fst (g : Graph) (a b : String) (w : Nat) (hab : a ≠ b) :
    alookup a (g.add_edge a b w).nodes =
      some (((alookup a g.nodes).getD (Node.mkNew a)).add_neighbor b w) := by
  unfold Graph.add_edge
  simp only
  rw [alookup_amodify, if_neg (fun h => hab h.symm), alookup_amodify, if_pos rfl,
    alookup_add_node, if_neg hab, alookup_add_node, if_pos rfl]
  rfl

theorem alookup_add_edge_snd (g : Graph) (a b : String) (w : Nat) (hab : a ≠ b) :
    alookup b (g.add_edge a b w).nodes =
      some (((alookup b g.nodes).getD (Node.mkNew b)).add_neighbor a w) := by
  unfold Graph.add_edge
  simp only
  rw [alookup_amodify, if_pos rfl, alookup_amodify, if_neg hab,
    alookup_add_node, if_pos rfl, alookup_add_node, if_neg (fun h => hab h.symm)]
  rfl

theorem add_edge_observables (g : Graph) (a b : String) (w : Nat) (hab : a ≠ b) :
    nbrWeight (g.add_edge a b w) a b = some ((nbrWeight g a b).getD 0 + w) ∧
    nbrWeight (g.add_edge a b w) b a = some ((nbrWeight g b a).getD 0 + w) ∧
    degOf (g.add_edge a b w) a =
      (if (nbrWeight g a b).isSome then degOf g a else degOf g a + 1) ∧
    degOf (g.add_edge a b w) b =
      (if (nbrWeight g b a).isSome then degOf g b else degOf g b + 1) ∧
    wdegOf (g.add_edge a b w) a = wdegOf g a + w ∧
    wdegOf (g.add_edge a b w) b = wdegOf g b + w := by
  have ha := alookup_add_edge_fst g a b w hab
  have hb := alookup_add_edge_snd g a b w hab
  refine ⟨?_, ?_, ?_, ?_, ?_, ?_⟩
  · unfold nbrWeight
    rw [ha]
    simp only [Option.some_bind]
    rw [add_neighbor_lookup, if_pos rfl, getD_mkNew_nbr]
    rfl
  · unfold nbrWeight
    rw [hb]
    simp only [Option.some_bind]
    rw [add_neighbor_lookup, if_pos rfl, getD_mkNew_nbr]
    rfl
  · unfold degOf
    rw [ha]
    simp only [Option.map_some', Option.getD_some]
    rw [add_neighbor_degree, getD_mkNew_nbr, getD_mkNew_degree]
    rfl
  · unfold degOf
    rw [hb]
    simp only [Option.map_some', Option.getD_some]
    rw [add_neighbor_degree, getD_mkNew_nbr, getD_mkNew_degree]
    rfl
  · unfold wdegOf
    rw [ha]
    simp only [Option.map_some', Option.getD_some]
    rw [add_neighbor_wdeg, getD_mkNew_wdeg]
    rfl
  · unfold wdegOf
    rw [hb]
    simp only [Option.map_some', Option.getD_some]
    rw [add_neighbor_wdeg, getD_mkNew_wdeg]
    rfl

/-- C4: on distinct endpoints with no prior edge, `add_edge(a,b,w1)` then
`add_edge(a,b,w2)` leaves adjacency weight `w1 + w2` on both endpoint
records, the second call leaves both degrees unchanged, and each call
adds its weight argument to both endpoints' weighted degrees. -/
theorem claim_C4_add_edge_additive (g : Graph) (a b : String) (w1 w2 : Nat)
    (hab : a ≠ b) (ha : nbrWeight g a b = none) (hb : nbrWeight g b a = none) :
    nbrWeight ((g.add_edge a b w1).add_edge a b w2) a b = some (w1 + w2) ∧
    nbrWeight ((g.add_edge a b w1).add_edge a b w2) b a = some (w1 + w2) ∧
    degOf ((g.add_edge a b w1).add_edge a b w2) a = degOf (g.add_edge a b w1) a ∧
    degOf ((g.add_edge a b w1).add_edge a b w2) b = degOf (g.add_edge a b w1) b ∧
    wdegOf (g.add_edge a b w1) a = wdegOf g a + w1 ∧
    wdegOf (g.add_edge a b w1) b = wdegOf g b + w1 ∧
    wdegOf ((g.add_edge a b w1).add_edge a b w2) a = wdegOf (g.add_edge a b w1) a + w2 ∧
    wdegOf ((g.add_edge a b w1).add_edge a b w2) b = wdegOf (g.add_edge a b w1) b + w2 := by
  obtain ⟨h1ab, h1ba, h1da, h1db, h1wa, h1wb⟩ := add_edge_observables g a b w1 hab
  obtain ⟨h2ab, h2ba, h2da, h2db, h2wa, h2wb⟩ :=
    add_edge_observables (g.add_edge a b w1) a b w2 hab
  rw [ha] at h1ab
  rw [hb] at h1ba
  rw [h1ab] at h2ab h2da
  rw [h1ba] at h2ba h2db
  simp only [Option.getD_some, Option.getD_none, Option.isSome_some, if_true,
    Nat.zero_add] at h2ab h2ba h2da h2db
  exact ⟨h2ab, h2ba, h2da, h2db, h1wa, h1wb, h2wa, h2wb⟩

/-- Witness for C4 at a concrete input. -/
theorem claim_C4_witness :
    ((("A" : String) ≠ "B") ∧ nbrWeight Graph.empty "A" "B" = none ∧
      nbrWeight Graph.empty "B" "A" = none) ∧
    (nbrWeight ((Graph.empty.add_edge "A" "B" 2).add_edge "A" "B" 3) "A" "B" = some (2 + 3) ∧
      nbrWeight ((Graph.empty.add_edge "A" "B" 2).add_edge "A" "B" 3) "B" "A" = some (2 + 3) ∧
      degOf ((Graph.empty.add_edge "A" "B" 2).add_edge "A" "B" 3) "A" =
        degOf (Graph.empty.add_edge "A" "B" 2) "A" ∧
      degOf ((Graph.empty.add_edge "A" "B" 2).add_edge "A" "B" 3) "B" =
        degOf (Graph.empty.add_edge "A" "B" 2) "B" ∧
      wdegOf (Graph.empty.add_edge "A" "B" 2) "A" = wdegOf Graph.empty "A" + 2 ∧
      wdegOf (Graph.empty.add_edge "A" "B" 2) "B" = wdegOf Graph.empty "B" + 2 ∧
      wdegOf ((Graph.empty.add_edge "A" "B" 2).add_edge "A" "B" 3) "A" =
        wdegOf (Graph.empty.add_edge "A" "B" 2) "A" + 3 ∧
      wdegOf ((Graph.empty.add_edge "A" "B" 2).add_edge "A" "B" 3) "B" =
        wdegOf (Graph.empty.add_edge "A" "B" 2) "B" + 3) :=
  ⟨⟨by decide, by decide, by decide⟩,
    claim_C4_add_edge_additive Graph.empty "A" "B" 2 3 (by decide) (by decide) (by decide)⟩

/-- C10: `add_edge(a, a, w)` on a node with no prior self-loop entry makes
`a` its own neighbor with adjacency weight `2 * w`, increments its degree
by one, and raises its weighted degree by `2 * w` (the node is mutated
twice in sequence by the two `add_neighbor` calls). -/
theorem claim_C10_self_loop (g : Graph) (a : String) (w : Nat)
    (h : nbrWeight g a a = none) :
    nbrWeight (g.add_edge a a w) a a = some (2 * w) ∧
    degOf (g.add_edge a a w) a = degOf g a + 1 ∧
    wdegOf (g.add_edge a a w) a = wdegOf g a + 2 * w := by
  have hnode : alookup a (g.add_edge a a w).nodes =
      some ((((alookup a g.nodes).getD (Node.mkNew a)).add_neighbor a w).add_neighbor a w) := by
    unfold Graph.add_edge
    simp only
    rw [alookup_amodify, if_pos rfl, alookup_amodify, if_pos rfl,
      alookup_add_node, if_pos rfl, alookup_add_node, if_pos rfl]
    cases hc : alookup a g.nodes <;> simp [hc]
  have hn1 : alookup a (((alookup a g.nodes).getD (Node.mkNew a)).add_neighbor a w).neighbors =
      some (0 + w) := by
    rw [add_neighbor_lookup, if_pos rfl, getD_mkNew_nbr, h]
    rfl
  refine ⟨?_, ?_, ?_⟩
  · unfold nbrWeight
    rw [hnode]
    simp only [Option.some_bind]
    rw [add_neighbor_lookup, if_pos rfl, hn1]
    simp only [Option.getD_some]
    have : 0 + w + w = 2 * w := by omega
    rw [this]
  · unfold degOf
    rw [hnode]
    simp only [Option.map_some', Option.getD_some]
    rw [add_neighbor_degree, hn1]
    simp only [Option.isSome_some, if_true]
    rw [add_neighbor_degree, getD_mkNew_nbr, h]
    simp only [Option.isSome_none, Bool.false_eq_true, if_false]
    rw [getD_mkNew_degree]
    rfl
  · unfold wdegOf
    rw [hnode]
    simp only [Option.map_some', Option.getD_some]
    rw [add_neighbor_wdeg, add_neighbor_wdeg, getD_mkNew_wdeg]
    show wdegOf g a + w + w = wdegOf g a + 2 * w
    omega

/-- Witness for C10 at a concrete input. -/
theorem claim_C10_witness :
    (nbrWeight Graph.empty "A" "A" = none) ∧
    (nbrWeight (Graph.empty.add_edge "A" "A" 4) "A" "A" = some (2 * 4) ∧
      degOf (Graph.empty.add_edge "A" "A" 4) "A" = degOf Graph.empty "A" + 1 ∧
      wdegOf (Graph.empty.add_edge "A" "A" 4) "A" = wdegOf Graph.empty "A" + 2 * 4) :=
  ⟨by decide, claim_C10_self_loop Graph.empty "A" 4 (by decide)⟩

theorem alookup_add_edge_other (g : Graph) (a b x : String) (w : Nat)
    (hxa : x ≠ a) (hxb : x ≠ b) :
    alookup x (g.add_edge a b w).nodes = alookup x g.nodes := by
  unfold Graph.add_edge
  simp only
  rw [alookup_amodify, if_neg (fun h => hxb h.symm),
    alookup_amodify, if_neg (fun h => hxa h.symm),
    alookup_add_node, if_neg hxb, alookup_add_node, if_neg hxa]

theorem alookup_add_edge_self (g : Graph) (a : String) (w : Nat) :
    alookup a (g.add_edge a a w).nodes =
      some ((((alookup a g.nodes).getD (Node.mkNew a)).add_neighbor a w).add_neighbor a w) := by
  unfold Graph.add_edge
  simp only
  rw [alookup_amodify, if_pos rfl, alookup_amodify, if_pos rfl,
    alookup_add_node, if_pos rfl, alookup_add_node, if_pos rfl]
  cases hc : alookup a g.nodes <;> simp [hc]

theorem nbrWeight_add_edge_fst (g : Graph) (a b y : String) (w : Nat) (hab : a ≠ b) :
    nbrWeight (g.add_edge a b w) a y =
      if b = y then some ((nbrWeight g a b).getD 0 + w) else nbrWeight g a y := by
  unfold nbrWeight
  rw [alookup_add_edge_fst g a b w hab]
  simp only [Option.some_bind]
  rw [add_neighbor_lookup, getD_mkNew_nbr]
  by_cases hby : b = y
  · rw [if_pos hby, if_pos hby]
    rfl
  · rw [if_neg hby, if_neg hby]
    exact getD_mkNew_nbr g a y

theorem nbrWeight_add_edge_snd (g : Graph) (a b y : String) (w : Nat) (hab : a ≠ b) :
    nbrWeight (g.add_edge a b w) b y =
      if a = y then some ((nbrWeight g b a).getD 0 + w) else nbrWeight g b y := by
  unfold nbrWeight
  rw [alookup_add_edge_snd g a b w hab]
  simp only [Option.some_bind]
  rw [add_neighbor_lookup, getD_mkNew_nbr]
  by_cases hay : a = y
  · rw [if_pos hay, if_pos hay]
    rfl
  · rw [if_neg hay, if_neg hay]
    exact getD_mkNew_nbr g b y

theorem nbrWeight_add_edge_selfnode (g : Graph) (a y : String) (w : Nat) :
    nbrWeight (g.add_edge a a w) a y =
      if a = y then some ((nbrWeight g a a).getD 0 + w + w) else nbrWeight g a y := by
  unfold nbrWeight
  rw [alookup_add_edge_self g a w]
  simp only [Option.some_bind]
  rw [add_neighbor_lookup]
  by_cases hay : a = y
  · rw [if_pos hay, if_pos hay]
    rw [add_neighbor_lookup, if_pos rfl, getD_mkNew_nbr]
    subst hay
    simp only [Option.getD_some]
    rfl
  · rw [if_neg hay, if_neg hay, add_neighbor_lookup, if_neg hay, getD_mkNew_nbr]
    rfl

theorem nbrWeight_add_edge_other (g : Graph) (a b x y : String) (w : Nat)
    (hxa : x ≠ a) (hxb : x ≠ b) :
    nbrWeight (g.add_edge a b w) x y = nbrWeight g x y := by
  unfold nbrWeight
  rw [alookup_add_edge_other g a b x w hxa hxb]

theorem edgeW_add_edge (g : Graph) (a b x y : String) (w : Nat) :
    edgeW (g.add_edge a b w) x y = edgeW g x y + pairDelta x y a b w := by
  unfold pairDelta
  by_cases hab : a = b
  · subst hab
    by_cases hxa : x = a
    · subst hxa
      unfold edgeW
      rw [nbrWeight_add_edge_selfnode]
      by_cases hxy : x = y
      · subst hxy
        have hc : (x = x ∧ x = x) := ⟨rfl, rfl⟩
        rw [if_pos rfl, if_pos hc, Option.getD_some]
        omega
      · have h1 : ¬(x = x ∧ y = x) := fun h => hxy h.2.symm
        rw [if_neg hxy, if_neg h1]
        omega
    · unfold edgeW
      rw [nbrWeight_add_edge_other g a a x y w hxa hxa]
      have h1 : ¬(x = a ∧ y = a) := fun h => hxa h.1
      rw [if_neg h1]
      omega
  · by_cases hxa : x = a
    · subst hxa
      unfold edgeW
      rw [nbrWeight_add_edge_fst g x b y w hab]
      by_cases hby : b = y
      · subst hby
        have hc : (x = x ∧ b = b) := ⟨rfl, rfl⟩
        have h3 : ¬(x = b ∧ b = x) := fun h => hab h.1
        rw [if_pos rfl, if_pos hc, if_neg h3, Option.getD_some]
        omega
      · have h1 : ¬(x = x ∧ y = b) := fun h => hby h.2.symm
        have h3 : ¬(x = b ∧ y = x) := fun h => hab h.1
        rw [if_neg hby, if_neg h1, if_neg h3]
        omega
    · by_cases hxb : x = b
      · subst hxb
        unfold edgeW
        rw [nbrWeight_add_edge_snd g a x y w (fun h => hab h)]
        by_cases hay : a = y
        · subst hay
          have h1 : ¬(x = a ∧ a = x) := fun h => hxa h.1
          have hc : (x = x ∧ a = a) := ⟨rfl, rfl⟩
          rw [if_pos rfl, if_neg h1, if_pos hc, Option.getD_some]
          omega
        · have h1 : ¬(x = a ∧ y = x) := fun h => hxa h.1
          have h2 : ¬(x = x ∧ y = a) := fun h => hay h.2.symm
          rw [if_neg hay, if_neg h1, if_neg h2]
          omega
      · unfold edgeW
        rw [nbrWeight_add_edge_other g a b x y w hxa hxb]
        have h1 : ¬(x = a ∧ y = b) := fun h => hxa h.1
        have h2 : ¬(x = b ∧ y = a) := fun h => hxb h.1
        rw [if_neg h1, if_neg h2]
        omega

theorem edgeW_addPairs (g : Graph) (l : List (String × Nat)) (x y : String) :
    edgeW (g.addPairs l) x y = edgeW g x y + pairContrib x y l := by
  induction l generalizing g with
  | nil => simp [Graph.addPairs, pairContrib]
  | cons p rest ih =>
    obtain ⟨pair, w⟩ := p
    unfold Graph.addPairs pairContrib
    cases hs : splitPair pair with
    | none => simp only [hs]; rw [ih g]; omega
    | some ab =>
      obtain ⟨a0, b0⟩ := ab
      simp only [hs]
      rw [ih, edgeW_add_edge]
      omega

theorem edgeW_build (g : Graph) (tbl : List (String × List (String × Nat))) (x y : String) :
    edgeW (g.build_graph_from_interactions tbl) x y = edgeW g x y + tableContrib x y tbl := by
  induction tbl generalizing g with
  | nil => simp [Graph.build_graph_from_interactions, tableContrib]
  | cons e rest ih =>
    unfold Graph.build_graph_from_interactions at *
    simp only [List.foldl_cons]
    rw [ih, edgeW_addPairs]
    unfold tableContrib
    simp only [List.map_cons, List.sum_cons]
    omega

theorem by_seasons_eq_filter (tbl : List (String × List (String × Nat))) (ss : List Nat) :
    build_graph_by_seasons tbl ss =
      Graph.empty.build_graph_from_interactions (tbl.filter (seasonKeep ss)) := by
  unfold build_graph_by_seasons Graph.build_graph_from_interactions
  generalize Graph.empty = g
  induction tbl generalizing g with
  | nil => rfl
  | cons e rest ih =>
    simp only [List.foldl_cons]
    cases hs : seasonOf e.1 with
    | none =>
      have hk : seasonKeep ss e = false := by unfold seasonKeep; rw [hs]
      rw [List.filter_cons_of_neg (by simp [hk])]
      simp only [hs]
      exact ih g
    | some s =>
      by_cases hmem : s ∈ ss
      · have hk : seasonKeep ss e = true := by
          unfold seasonKeep
          rw [hs]
          exact decide_eq_true hmem
        rw [List.filter_cons_of_pos (by simp [hk]), List.foldl_cons]
        simp only [hs, if_pos hmem]
        exact ih _
      · have hk : seasonKeep ss e = false := by
          unfold seasonKeep
          rw [hs]
          exact decide_eq_false hmem
        rw [List.filter_cons_of_neg (by simp [hk])]
        simp only [hs, if_neg hmem]
        exact ih g

theorem edgeW_empty (x y : String) : edgeW Graph.empty x y = 0 := by
  simp [edgeW, nbrWeight, Graph.empty, alookup]

theorem sum_map_add {α : Type} (l : List α) (f g : α → Nat) :
    (l.map (fun s => f s + g s)).sum = (l.map f).sum + (l.map g).sum := by
  induction l with
  | nil => rfl
  | cons t ts ih => simp [ih]; omega

theorem sum_indicator_single (ss : List Nat) (s0 : Nat) (C : Nat)
    (hmem : s0 ∈ ss) (hnd : ss.Nodup) :
    (ss.map (fun s => if s0 = s then C else 0)).sum = C := by
  induction ss with
  | nil => simp at hmem
  | cons t ts ih =>
    by_cases h : s0 = t
    · subst h
      have hnin : s0 ∉ ts := (List.nodup_cons.mp hnd).1
      have hz : (ts.map (fun s => if s0 = s then C else 0)).sum = 0 := by
        rw [List.sum_eq_zero]
        intro z hz
        simp only [List.mem_map] at hz
        obtain ⟨t2, ht2, hzeq⟩ := hz
        have : ¬ s0 = t2 := fun h => hnin (h ▸ ht2)
        simp [this] at hzeq
        omega
      rw [List.map_cons, List.sum_cons, if_pos rfl, hz]
      omega
    · have hmem2 : s0 ∈ ts := by
        cases List.mem_cons.mp hmem with
        | inl h2 => exact absurd h2 h
        | inr h2 => exact h2
      have hnd2 : ts.Nodup := (List.nodup_cons.mp hnd).2
      simp [h, ih hmem2 hnd2]

theorem season_partition (tbl : List (String × List (String × Nat))) (ss : List Nat)
    (x y : String)
    (hwf : ∀ e ∈ tbl, (seasonOf e.1).isSome)
    (hnd : ss.Nodup)
    (hcov : ∀ e ∈ tbl, ∀ s, seasonOf e.1 = some s → s ∈ ss) :
    (ss.map (fun s => tableContrib x y (tbl.filter (seasonKeep [s])))).sum =
      tableContrib x y tbl := by
  induction tbl with
  | nil => simp [tableContrib]
  | cons e rest ih =>
    have hwfe := hwf e (by simp)
    obtain ⟨s0, hs0⟩ := Option.isSome_iff_exists.mp hwfe
    have hs0mem : s0 ∈ ss := hcov e (by simp) s0 hs0
    have hkeep : ∀ s, seasonKeep [s] e = decide (s0 = s) := by
      intro s
      unfold seasonKeep
      rw [hs0]
      by_cases h : s0 = s <;> simp [h]
    have hstep : ∀ s, tableContrib x y ((e :: rest).filter (seasonKeep [s])) =
        (if s0 = s then pairContrib x y e.2 else 0) +
          tableContrib x y (rest.filter (seasonKeep [s])) := by
      intro s
      by_cases h : s0 = s
      · rw [List.filter_cons_of_pos (by simp [hkeep s, h])]
        simp [h, tableContrib]
      · rw [List.filter_cons_of_neg (by simp [hkeep s, h])]
        simp [h]
    have hrest := ih (fun e2 he2 => hwf e2 (by simp [he2]))
      (fun e2 he2 s hs => hcov e2 (by simp [he2]) s hs)
    calc (ss.map (fun s => tableContrib x y ((e :: rest).filter (seasonKeep [s])))).sum
        = (ss.map (fun s => (if s0 = s then pairContrib x y e.2 else 0) +
            tableContrib x y (rest.filter (seasonKeep [s])))).sum := by
          congr 1
          exact List.map_congr_left (fun s _ => hstep s)
      _ = (ss.map (fun s => if s0 = s then pairContrib x y e.2 else 0)).sum +
            (ss.map (fun s => tableContrib x y (rest.filter (seasonKeep [s])))).sum :=
          sum_map_add ss _ _
      _ = pairContrib x y e.2 + tableContrib x y rest := by
          rw [sum_indicator_single ss s0 _ hs0mem hnd, hrest]
      _ = tableContrib x y (e :: rest) := by simp [tableContrib]

/-- C9: on a table whose episode identifiers all carry a season code,
the graph for season set `{1}` is exactly the graph built from the
episodes whose season group is 1, and summing edge weights of the
season-filtered graphs over a duplicate-free list of seasons covering
every occurring season reproduces the full graph's edge weights. -/
theorem claim_C9_season_split (tbl : List (String × List (String × Nat))) (ss : List Nat)
    (hwf : ∀ e ∈ tbl, (seasonOf e.1).isSome)
    (hnd : ss.Nodup)
    (hcov : ∀ e ∈ tbl, ∀ s, seasonOf e.1 = some s → s ∈ ss) :
    build_graph_by_seasons tbl [1] =
      Graph.empty.build_graph_from_interactions
        (tbl.filter (fun e => seasonOf e.1 = some 1)) ∧
    ∀ x y, (ss.map (fun s => edgeW (build_graph_by_seasons tbl [s]) x y)).sum =
      edgeW (Graph.empty.build_graph_from_interactions tbl) x y := by
  constructor
  · rw [by_seasons_eq_filter]
    congr 1
    apply List.filter_congr
    intro e _
    unfold seasonKeep
    cases hs : seasonOf e.1 with
    | none => simp
    | some s => by_cases h : s = 1 <;> simp [h]
  · intro x y
    have hL : ∀ s, edgeW (build_graph_by_seasons tbl [s]) x y =
        tableContrib x y (tbl.filter (seasonKeep [s])) := by
      intro s
      rw [by_seasons_eq_filter, edgeW_build, edgeW_empty]
      omega
    calc (ss.map (fun s => edgeW (build_graph_by_seasons tbl [s]) x y)).sum
        = (ss.map (fun s => tableContrib x y (tbl.filter (seasonKeep [s])))).sum := by
          congr 1
          exact List.map_congr_left (fun s _ => hL s)
      _ = tableContrib x y tbl := season_partition tbl ss x y hwf hnd hcov
      _ = edgeW (Graph.empty.build_graph_from_interactions tbl) x y := by
          rw [edgeW_build, edgeW_empty]
          omega

/-- Witness for C9 at a concrete two-episode table. -/
theorem claim_C9_witness :
    ((∀ e ∈ [(("S01E01" : String), [(("A-B" : String), 2)]), ("S02E05", [("A-B", 3)])],
        (seasonOf e.1).isSome) ∧
      ([1, 2] : List Nat).Nodup ∧
      (∀ e ∈ [(("S01E01" : String), [(("A-B" : String), 2)]), ("S02E05", [("A-B", 3)])],
        ∀ s, seasonOf e.1 = some s → s ∈ [1, 2])) ∧
    (build_graph_by_seasons [(("S01E01" : String), [(("A-B" : String), 2)]), ("S02E05", [("A-B", 3)])] [1] =
        Graph.empty.build_graph_from_interactions
          ([(("S01E01" : String), [(("A-B" : String), 2)]), ("S02E05", [("A-B", 3)])].filter
            (fun e => seasonOf e.1 = some 1)) ∧
      ∀ x y, (([1, 2] : List Nat).map (fun s =>
          edgeW (build_graph_by_seasons
            [(("S01E01" : String), [(("A-B" : String), 2)]), ("S02E05", [("A-B", 3)])] [s]) x y)).sum =
        edgeW (Graph.empty.build_graph_from_interactions
          [(("S01E01" : String), [(("A-B" : String), 2)]), ("S02E05", [("A-B", 3)])]) x y) :=
  ⟨⟨by decide, by decide, by decide⟩,
    claim_C9_season_split _ [1, 2] (by decide) (by decide) (by decide)⟩

/-! ### Concrete parsing scenarios (claims C7 and C8) -/

/-- C7 counterexample: the dialogue `"Hi! How's it going?"` splits into 4
whitespace words, so the word-count parser credits Monica 4 words, not
the claimed 5 (Monica is still added to the scene). -/
theorem claim_C7_counterexample :
    (parse_episode_file_with_wordcount "Monica: Hi! How's it going?" =
      some ([["Monica"]], [], [("Monica", 4)])) ∧
    ∀ result, parse_episode_file_with_wordcount "Monica: Hi! How's it going?" = some result →
      ¬ alookup "Monica" result.2.2 = some 5 := by
  refine ⟨rfl, fun result h => ?_⟩
  have h0 : parse_episode_file_with_wordcount "Monica: Hi! How's it going?" =
      some ([["Monica"]], [], [("Monica", 4)]) := rfl
  rw [h0] at h
  injection h with h1
  rw [← h1]
  decide

/-- C7 (amended): parsing the line `"Monica: Hi! How's it going?"` adds
Monica to the current scene in both modes, and the word-count mode
credits Monica 4 words for the episode. -/
theorem claim_C7_monica_line :
    parse_episode_file "Monica: Hi! How's it going?" = ([["Monica"]], []) ∧
    lineAct1 NAME_MAP "Monica: Hi! How's it going?".data = .addChars ["Monica"] ∧
    parse_episode_file_with_wordcount "Monica: Hi! How's it going?" =
      some ([["Monica"]], [], [("Monica", 4)]) :=
  ⟨rfl, rfl, rfl⟩

/-- C8: the line `"Phoebe shakes her hand and says: Phoe-Be."` matches
the strict speaker pattern but contains action words, so it is deferred
to the fallback, which finds exactly one principal-name substring
(`Phoebe`) and adds it; the result is the same for every alias table, so
the alias table is never consulted. -/
theorem claim_C8_fallback_phoebe (nm : List (String × String)) :
    parseCore1 nm "Phoebe shakes her hand and says: Phoe-Be." = ([["Phoebe"]], []) ∧
    lineAct1 nm "Phoebe shakes her hand and says: Phoe-Be.".data = .addChars ["Phoebe"] ∧
    (normalMatch1 (pyStrip "Phoebe shakes her hand and says: Phoe-Be.".data)).isSome = true ∧
    (splitWs ((pyLower (pyStrip ((normalMatch1
        (pyStrip "Phoebe shakes her hand and says: Phoe-Be.".data)).getD []))).filter
          (fun ch => ch ≠ '\''))).any
      (fun w => ACTION_WORDS.contains (String.mk w)) = true ∧
    (MAIN_CHARS.filter (fun name => listHasSub (pyLower name.data)
        (pyLower (pyStrip (("Phoebe shakes her hand and says: Phoe-Be.".data).takeWhile
          (fun ch => ch ≠ ':')))))) = ["Phoebe"] ∧
    fallbackResolve (pyStrip "Phoebe shakes her hand and says: Phoe-Be.".data) = some "Phoebe" :=
  ⟨rfl, rfl, rfl, rfl, rfl, rfl⟩

/-! ### The fallback's rejection rule (claim C6) -/

/-- C6 counterexample: `"ross' customer: hello"` fails the strict speaker
pattern (lowercase start), reaches the fallback with the word `customer`
in the generic-role set, yet the fallback adds Ross — the word-level
group-speaker/generic-role rule of the primary path is not applied
there. -/
theorem claim_C6_counterexample :
    normalMatch1 (pyStrip "ross' customer: hello".data) = none ∧
    (splitWs ((pyLower (pyStrip (("ross' customer: hello".data).takeWhile
        (fun ch => ch ≠ ':')))).filter (fun ch => ch ≠ '\''))).any
      (fun w => GENERIC_ROLES.contains (String.mk w)) = true ∧
    lineAct1 NAME_MAP "ross' customer: hello".data = .addChars ["Ross"] ∧
    parse_episode_file "ross' customer: hello" = ([["Ross"]], []) :=
  ⟨rfl, rfl, rfl, rfl⟩

/-- C6 (amended): the fallback rejects a line — resolving no speaker —
whenever the normalized pre-colon prefix, taken as a whole, is a
group-speaker phrase or a generic role, or any of its words after
apostrophe removal is a group indicator.  (Word-level group-speaker and
generic-role matches are not checked by the fallback.) -/
theorem claim_C6_fallback_rejects (l : List Char)
    (h : GROUP_SPEAKER_PHRASES.contains
          (String.mk (pyLower (pyStrip (l.takeWhile (fun ch => ch ≠ ':'))))) = true ∨
         GENERIC_ROLES.contains
          (String.mk (pyLower (pyStrip (l.takeWhile (fun ch => ch ≠ ':'))))) = true ∨
         (splitWs ((pyLower (pyStrip (l.takeWhile (fun ch => ch ≠ ':')))).filter
            (fun ch => ch ≠ '\''))).any
          (fun w => GROUP_INDICATORS.contains (String.mk w)) = true) :
    fallbackResolve l = none := by
  by_cases hc : l.contains ':' = true
  · rcases h with h | h | h <;> simp_all [fallbackResolve]
  · simp_all [fallbackResolve]

/-- Witness for C6's amended rule at a concrete input. -/
theorem claim_C6_witness :
    (GROUP_SPEAKER_PHRASES.contains
        (String.mk (pyLower (pyStrip (("all: cheers!".data).takeWhile
          (fun ch => ch ≠ ':'))))) = true ∨
      GENERIC_ROLES.contains
        (String.mk (pyLower (pyStrip (("all: cheers!".data).takeWhile
          (fun ch => ch ≠ ':'))))) = true ∨
      (splitWs ((pyLower (pyStrip (("all: cheers!".data).takeWhile
          (fun ch => ch ≠ ':')))).filter (fun ch => ch ≠ '\''))).any
        (fun w => GROUP_INDICATORS.contains (String.mk w)) = true) ∧
    fallbackResolve "all: cheers!".data = none :=
  ⟨Or.inl (by decide), claim_C6_fallback_rejects _ (Or.inl (by decide))⟩

/-! ### Relating the two parsers (claim C1) -/

/-- C1 counterexample: on the line `"Monica (smiles)"` the basic parser's
speaker pattern matches (lookahead `[:(]`), adding Monica, while the
word-count parser's pattern requires a colon and its fallback requires a
colon, so it drops the line: the two scene lists differ. -/
theorem claim_C1_counterexample :
    (parse_episode_file "Monica (smiles)").1 = [["Monica"]] ∧
    parse_episode_file_with_wordcount "Monica (smiles)" = some ([], [], []) ∧
    ¬ (([] : List (List String)) = (parse_episode_file "Monica (smiles)").1) :=
  ⟨rfl, rfl, by decide⟩

theorem fold_insert_fst (cs : List String) (cur : List String)
    (wc : List (String × Nat)) (n : Nat) :
    (cs.foldl (fun (p : List String × List (String × Nat)) c =>
      (insertChar p.1 c, wcBump p.2 c n)) (cur, wc)).1 = cs.foldl insertChar cur := by
  induction cs generalizing cur wc with
  | nil => rfl
  | cons c rest ih =>
    simp only [List.foldl_cons]
    exact ih _ _

theorem applyAct2_err_mono (st : PState2) (a : LineAct2) (h : st.err = true) :
    (applyAct2 st a).err = true := by
  unfold applyAct2
  rw [if_pos h]
  exact h

theorem foldl_applyAct2_err_mono (lines : List (List Char)) (st : PState2)
    (h : st.err = true) :
    (lines.foldl (fun s l => applyAct2 s (lineAct2 l)) st).err = true := by
  induction lines generalizing st with
  | nil => exact h
  | cons line rest ih =>
    simp only [List.foldl_cons]
    exact ih _ (applyAct2_err_mono st (lineAct2 line) h)

theorem applyAct2_scene (st : PState2) (a : LineAct2) (h0 : st.err = false)
    (h1 : (applyAct2 st a).err = false) :
    ((applyAct2 st a).scenes, (applyAct2 st a).cur) =
      applyAct (st.scenes, st.cur) (sceneActOf a) := by
  unfold applyAct2 at h1 ⊢
  rw [if_neg (by rw [h0]; exact Bool.false_ne_true)] at h1 ⊢
  cases a with
  | skip => rfl
  | flush => rfl
  | addSpeakers cs ct =>
    simp only [sceneActOf, applyAct]
    rw [fold_insert_fst]
  | matchedSkip ct => rfl
  | matchedFallback ct add => cases add <;> rfl
  | fallbackOnly add =>
    cases add with
    | none => rfl
    | some c =>
      cases hct : st.content with
      | some ct =>
        simp only [hct]
        rfl
      | none =>
        rw [hct] at h1
        simp at h1

theorem parse2_scene_proj (lines : List (List Char)) (st : PState2)
    (h : ∀ line ∈ lines, sceneActOf (lineAct2 line) = lineAct1 NAME_MAP line)
    (hend : (lines.foldl (fun s l => applyAct2 s (lineAct2 l)) st).err = false) :
    st.err = false ∧
    ((lines.foldl (fun s l => applyAct2 s (lineAct2 l)) st).scenes,
     (lines.foldl (fun s l => applyAct2 s (lineAct2 l)) st).cur) =
    lines.foldl (fun s l => applyAct s (lineAct1 NAME_MAP l)) (st.scenes, st.cur) := by
  induction lines generalizing st with
  | nil => exact ⟨hend, rfl⟩
  | cons line rest ih =>
    simp only [List.foldl_cons] at hend ⊢
    obtain ⟨h1err, hproj⟩ :=
      ih (applyAct2 st (lineAct2 line)) (fun l hl => h l (List.mem_cons_of_mem _ hl)) hend
    have h0err : st.err = false := by
      cases hb : st.err with
      | false => rfl
      | true =>
        have := applyAct2_err_mono st (lineAct2 line) hb
        rw [this] at h1err
        cases h1err
    refine ⟨h0err, ?_⟩
    rw [hproj]
    congr 1
    rw [← h line (List.mem_cons_self _ _)]
    exact applyAct2_scene st (lineAct2 line) h0err h1err

/-- C1 (amended): whenever the word-count parser returns normally — it
raises `UnboundLocalError` when a colon-fallback speaker resolution
happens before any speaker-pattern match has assigned `content` — and
every line of the file receives the same scene-level treatment from both
speaker patterns, the returned scene list and interaction table equal
the basic parser's; the word-count parser additionally returns the
per-character word counts.  (Unconditional equality fails: the two
speaker regexes differ, see the counterexample.) -/
theorem claim_C1_same_traversal (text : String)
    (h : ∀ line ∈ splitCh '\n' text.data,
      sceneActOf (lineAct2 line) = lineAct1 NAME_MAP line) :
    ∀ result, parse_episode_file_with_wordcount text = some result →
      result.1 = (parse_episode_file text).1 ∧
      result.2.1 = (parse_episode_file text).2 := by
  intro result hres
  unfold parse_episode_file_with_wordcount at hres
  simp only at hres
  by_cases herr : ((splitCh '\n' text.data).foldl
      (fun st line => applyAct2 st (lineAct2 line)) ⟨[], [], [], none, false⟩).err = true
  · rw [if_pos herr] at hres
    cases hres
  · have herr' : ((splitCh '\n' text.data).foldl
        (fun st line => applyAct2 st (lineAct2 line)) ⟨[], [], [], none, false⟩).err = false := by
      cases hb : ((splitCh '\n' text.data).foldl
          (fun st line => applyAct2 st (lineAct2 line)) ⟨[], [], [], none, false⟩).err with
      | false => rfl
      | true => exact absurd hb herr
    rw [if_neg herr] at hres
    obtain ⟨-, hp⟩ := parse2_scene_proj (splitCh '\n' text.data) ⟨[], [], [], none, false⟩ h herr'
    have hs : ((splitCh '\n' text.data).foldl
          (fun s l => applyAct2 s (lineAct2 l)) ⟨[], [], [], none, false⟩).scenes =
        ((splitCh '\n' text.data).foldl
          (fun s l => applyAct s (lineAct1 NAME_MAP l)) ([], [])).1 := by
      rw [← hp]
    have hc : ((splitCh '\n' text.data).foldl
          (fun s l => applyAct2 s (lineAct2 l)) ⟨[], [], [], none, false⟩).cur =
        ((splitCh '\n' text.data).foldl
          (fun s l => applyAct s (lineAct1 NAME_MAP l)) ([], [])).2 := by
      rw [← hp]
    rw [hs, hc] at hres
    injection hres with hres
    rw [← hres]
    unfold parse_episode_file parseCore1
    exact ⟨rfl, rfl⟩

theorem alookup_bumpCount (p k : String × String) (acc : List ((String × String) × Nat)) :
    alookup k (bumpCount p acc) =
      if p = k then some ((alookup k acc).getD 0 + 1) else alookup k acc := by
  induction acc with
  | nil =>
    by_cases h : p = k <;> simp [bumpCount, alookup, h]
  | cons q rest ih =>
    obtain ⟨k0, v⟩ := q
    by_cases h0 : k0 = p
    · subst h0
      by_cases hk : k0 = k
      · subst hk
        simp [bumpCount, alookup]
      · simp [bumpCount, alookup, hk]
    · by_cases hk : k0 = k
      · subst hk
        have : ¬ p = k0 := fun h => h0 h.symm
        simp [bumpCount, alookup, h0, this]
      · simp [bumpCount, alookup, h0, hk, ih]

theorem alookup_foldl_bump (P : List (String × String)) (acc : List ((String × String) × Nat))
    (k : String × String) :
    (alookup k (P.foldl (fun a p => bumpCount p a) acc)).getD 0 =
      (alookup k acc).getD 0 + countOcc k P := by
  induction P generalizing acc with
  | nil => simp [countOcc]
  | cons p P' ih =>
    simp only [List.foldl_cons]
    rw [ih, alookup_bumpCount]
    have hc : countOcc k (p :: P') = (if p = k then 1 else 0) + countOcc k P' := rfl
    rw [hc]
    by_cases h : p = k
    · rw [if_pos h, if_pos h, Option.getD_some]
      omega
    · rw [if_neg h, if_neg h]
      omega

theorem alookup_foldl_bump_none (P : List (String × String))
    (acc : List ((String × String) × Nat)) (k : String × String) :
    alookup k (P.foldl (fun a p => bumpCount p a) acc) = none ↔
      (alookup k acc = none ∧ countOcc k P = 0) := by
  induction P generalizing acc with
  | nil => simp [countOcc]
  | cons p P' ih =>
    simp only [List.foldl_cons]
    rw [ih, alookup_bumpCount]
    have hc : countOcc k (p :: P') = (if p = k then 1 else 0) + countOcc k P' := rfl
    rw [hc]
    by_cases h : p = k
    · simp [h]
    · simp [h]

theorem countOcc_append (k : String × String) (P Q : List (String × String)) :
    countOcc k (P ++ Q) = countOcc k P + countOcc k Q := by
  induction P with
  | nil => simp [countOcc]
  | cons p P' ih => simp [countOcc, ih]; omega

theorem countOcc_map_pair (x : String) (rest : List String) (A B : String) :
    countOcc (A, B) (rest.map (fun y => (x, y))) =
      if A = x then countStr B rest else 0 := by
  induction rest with
  | nil => by_cases h : A = x <;> simp [countOcc, countStr, h]
  | cons y ys ih =>
    simp only [List.map_cons]
    unfold countOcc countStr
    rw [ih]
    by_cases hA : A = x
    · subst hA
      by_cases hy : y = B
      · subst hy
        simp [Prod.ext_iff]
      · simp [Prod.ext_iff, hy]
    · have h1 : ¬ (x, y) = (A, B) := fun h => hA ((Prod.ext_iff.mp h).1.symm)
      simp [h1, hA]

theorem countStr_nodup (l : List String) (h : l.Nodup) (b : String) :
    countStr b l = if b ∈ l then 1 else 0 := by
  induction l with
  | nil => simp [countStr]
  | cons y ys ih =>
    have hnin : y ∉ ys := (List.nodup_cons.mp h).1
    have hys : ys.Nodup := (List.nodup_cons.mp h).2
    unfold countStr
    rw [ih hys]
    by_cases hyb : y = b
    · subst hyb
      simp [hnin]
    · simp [hyb, Ne.symm hyb]

theorem countOcc_combos2 (l : List String) (hs : List.Sorted (· < ·) l) (A B : String) :
    countOcc (A, B) (combos2 l) = if A ∈ l ∧ B ∈ l ∧ A < B then 1 else 0 := by
  induction l with
  | nil => simp [combos2, countOcc]
  | cons x rest ih =>
    have hs' : List.Sorted (· < ·) rest := hs.of_cons
    have hx : ∀ y ∈ rest, x < y := List.rel_of_sorted_cons hs
    have hnd : (x :: rest).Nodup := hs.nodup
    have hxnin : x ∉ rest := (List.nodup_cons.mp hnd).1
    rw [combos2, countOcc_append, countOcc_map_pair, ih hs']
    by_cases hAx : A = x
    · subst hAx
      rw [if_pos rfl, countStr_nodup rest ((List.nodup_cons.mp hnd).2)]
      have h2 : ¬ (A ∈ rest ∧ B ∈ rest ∧ A < B) := fun h => hxnin h.1
      rw [if_neg h2]
      by_cases hB : B ∈ rest
      · have hAB : A < B := hx B hB
        have hcond : A ∈ A :: rest ∧ B ∈ A :: rest ∧ A < B :=
          ⟨List.mem_cons_self _ _, List.mem_cons_of_mem _ hB, hAB⟩
        rw [if_pos hB, if_pos hcond]
      · rw [if_neg hB]
        by_cases hBx : B = A
        · subst hBx
          have : ¬ (B ∈ B :: rest ∧ B ∈ B :: rest ∧ B < B) := fun h => lt_irrefl B h.2.2
          rw [if_neg this]
        · have : ¬ (A ∈ A :: rest ∧ B ∈ A :: rest ∧ A < B) := by
            rintro ⟨-, hBm, -⟩
            rcases List.mem_cons.mp hBm with h | h
            · exact hBx h
            · exact hB h
          rw [if_neg this]
    · rw [if_neg hAx, Nat.zero_add]
      by_cases hAr : A ∈ rest
      · have hxA : x < A := hx A hAr
        by_cases hB : B ∈ rest
        · by_cases hAB : A < B
          · have h1 : A ∈ rest ∧ B ∈ rest ∧ A < B := ⟨hAr, hB, hAB⟩
            have h2 : A ∈ x :: rest ∧ B ∈ x :: rest ∧ A < B :=
              ⟨List.mem_cons_of_mem _ hAr, List.mem_cons_of_mem _ hB, hAB⟩
            rw [if_pos h1, if_pos h2]
          · have h1 : ¬ (A ∈ rest ∧ B ∈ rest ∧ A < B) := fun h => hAB h.2.2
            have h2 : ¬ (A ∈ x :: rest ∧ B ∈ x :: rest ∧ A < B) := fun h => hAB h.2.2
            rw [if_neg h1, if_neg h2]
        · have h1 : ¬ (A ∈ rest ∧ B ∈ rest ∧ A < B) := fun h => hB h.2.1
          have h2 : ¬ (A ∈ x :: rest ∧ B ∈ x :: rest ∧ A < B) := by
            rintro ⟨-, hBm, hAB⟩
            rcases List.mem_cons.mp hBm with h | h
            · subst h
              exact absurd (lt_trans hxA hAB) (lt_irrefl B)
            · exact hB h
          rw [if_neg h1, if_neg h2]
      · have h1 : ¬ (A ∈ rest ∧ B ∈ rest ∧ A < B) := fun h => hAr h.1
        have h2 : ¬ (A ∈ x :: rest ∧ B ∈ x :: rest ∧ A < B) := by
          rintro ⟨hAm, -, -⟩
          rcases List.mem_cons.mp hAm with h | h
          · exact hAx h
          · exact hAr h
        rw [if_neg h1, if_neg h2]

theorem combos2_lt (l : List String) (hs : List.Sorted (· < ·) l) :
    ∀ p ∈ combos2 l, p.1 < p.2 := by
  induction l with
  | nil => intro p hp; simp [combos2] at hp
  | cons x rest ih =>
    intro p hp
    rw [combos2, List.mem_append] at hp
    rcases hp with hp | hp
    · obtain ⟨y, hy, hpy⟩ := List.mem_map.mp hp
      subst hpy
      exact List.rel_of_sorted_cons hs y hy
    · exact ih hs.of_cons p hp

theorem insertSorted_perm (x : String) (l : List String) :
    List.Perm (insertSorted x l) (x :: l) := by
  induction l with
  | nil => exact List.Perm.refl _
  | cons y rest ih =>
    unfold insertSorted
    by_cases h : x ≤ y
    · rw [if_pos h]
    · rw [if_neg h]
      exact List.Perm.trans (ih.cons y) (List.Perm.swap x y rest)

theorem sortStrings_perm (l : List String) : List.Perm (sortStrings l) l := by
  induction l with
  | nil => exact List.Perm.refl _
  | cons x rest ih =>
    exact List.Perm.trans (insertSorted_perm x (sortStrings rest)) (ih.cons x)

theorem insertSorted_sorted (x : String) (l : List String)
    (h : List.Sorted (· ≤ ·) l) : List.Sorted (· ≤ ·) (insertSorted x l) := by
  induction l with
  | nil => simp [insertSorted]
  | cons y rest ih =>
    unfold insertSorted
    by_cases hxy : x ≤ y
    · rw [if_pos hxy]
      rw [List.sorted_cons]
      refine ⟨fun b hb => ?_, h⟩
      rcases List.mem_cons.mp hb with hb | hb
      · subst hb; exact hxy
      · exact le_trans hxy (List.rel_of_sorted_cons h b hb)
    · rw [if_neg hxy]
      rw [List.sorted_cons]
      refine ⟨fun b hb => ?_, ih h.of_cons⟩
      have hmem := (insertSorted_perm x rest).mem_iff.mp hb
      rcases List.mem_cons.mp hmem with hb2 | hb2
      · subst hb2; exact le_of_not_le hxy
      · exact List.rel_of_sorted_cons h b hb2

theorem sortStrings_sorted (l : List String) : List.Sorted (· ≤ ·) (sortStrings l) := by
  induction l with
  | nil => simp [sortStrings]
  | cons x rest ih => exact insertSorted_sorted x _ ih

theorem sortStrings_sorted_lt (l : List String) (h : l.Nodup) :
    List.Sorted (· < ·) (sortStrings l) :=
  (sortStrings_sorted l).lt_of_le ((sortStrings_perm l).nodup_iff.mpr h)

theorem pairsOf_count (scene : List String) (h : scene.Nodup) (A B : String) :
    countOcc (A, B) (pairsOf scene) =
      if A ∈ scene ∧ B ∈ scene ∧ A < B then 1 else 0 := by
  unfold pairsOf
  rw [countOcc_combos2 _ (sortStrings_sorted_lt scene h)]
  by_cases hc : A ∈ scene ∧ B ∈ scene ∧ A < B
  · have : A ∈ sortStrings scene ∧ B ∈ sortStrings scene ∧ A < B :=
      ⟨(sortStrings_perm scene).mem_iff.mpr hc.1,
       (sortStrings_perm scene).mem_iff.mpr hc.2.1, hc.2.2⟩
    rw [if_pos this, if_pos hc]
  · have : ¬ (A ∈ sortStrings scene ∧ B ∈ sortStrings scene ∧ A < B) := fun hx =>
      hc ⟨(sortStrings_perm scene).mem_iff.mp hx.1,
        (sortStrings_perm scene).mem_iff.mp hx.2.1, hx.2.2⟩
    rw [if_neg this, if_neg hc]

theorem pairsOf_lt (scene : List String) (h : scene.Nodup) :
    ∀ p ∈ pairsOf scene, p.1 < p.2 :=
  combos2_lt _ (sortStrings_sorted_lt scene h)

theorem interactions_getD (scenes : List (List String)) (acc : List ((String × String) × Nat))
    (k : String × String) :
    (alookup k (scenes.foldl (fun acc sc => (pairsOf sc).foldl (fun a p => bumpCount p a) acc) acc)).getD 0 =
      (alookup k acc).getD 0 + (scenes.map (fun sc => countOcc k (pairsOf sc))).sum := by
  induction scenes generalizing acc with
  | nil => simp
  | cons sc rest ih =>
    simp only [List.foldl_cons, List.map_cons, List.sum_cons]
    rw [ih, alookup_foldl_bump]
    omega

theorem interactions_none (scenes : List (List String)) (acc : List ((String × String) × Nat))
    (k : String × String) :
    alookup k (scenes.foldl (fun acc sc => (pairsOf sc).foldl (fun a p => bumpCount p a) acc) acc) = none ↔
      (alookup k acc = none ∧ ∀ sc ∈ scenes, countOcc k (pairsOf sc) = 0) := by
  induction scenes generalizing acc with
  | nil => simp
  | cons sc rest ih =>
    simp only [List.foldl_cons]
    rw [ih, alookup_foldl_bump_none]
    constructor
    · rintro ⟨⟨h1, h2⟩, h3⟩
      refine ⟨h1, fun s hs => ?_⟩
      rcases List.mem_cons.mp hs with hh | hh
      · subst hh; exact h2
      · exact h3 s hh
    · rintro ⟨h1, h2⟩
      exact ⟨⟨h1, h2 sc (List.mem_cons_self _ _)⟩, fun s hs => h2 s (List.mem_cons_of_mem _ hs)⟩

theorem alookup_mem {κ β : Type} [DecidableEq κ] (k : κ) (l : List (κ × β)) (v : β)
    (h : alookup k l = some v) : (k, v) ∈ l := by
  induction l with
  | nil => simp [alookup] at h
  | cons p rest ih =>
    obtain ⟨k0, v0⟩ := p
    by_cases hk : k0 = k
    · subst hk
      simp [alookup] at h
      simp [h]
    · simp [alookup, hk] at h
      exact List.mem_cons_of_mem _ (ih h)

theorem insertChar_nodup (s : List String) (c : String) (h : s.Nodup) :
    (insertChar s c).Nodup := by
  unfold insertChar
  by_cases hm : c ∈ s
  · rw [if_pos hm]
    exact h
  · rw [if_neg hm]
    exact List.Nodup.append h (List.nodup_singleton c)
      (fun a ha hb => hm ((List.mem_singleton.mp hb) ▸ ha))

theorem foldl_insertChar_nodup (cs : List String) (cur : List String) (h : cur.Nodup) :
    (cs.foldl insertChar cur).Nodup := by
  induction cs generalizing cur with
  | nil => exact h
  | cons c rest ih => exact ih _ (insertChar_nodup cur c h)

theorem applyAct_inv (st : List (List String) × List String) (a : LineAct)
    (h : sceneInv st) : sceneInv (applyAct st a) := by
  obtain ⟨h1, h2⟩ := h
  cases a with
  | flush =>
    refine ⟨?_, List.nodup_nil⟩
    intro sc hsc
    unfold applyAct at hsc
    by_cases hne : st.2 ≠ []
    · rw [if_pos hne] at hsc
      rcases List.mem_append.mp hsc with hh | hh
      · exact h1 sc hh
      · rw [List.mem_singleton.mp hh]
        exact h2
    · rw [if_neg hne] at hsc
      exact h1 sc hsc
  | addChars cs => exact ⟨h1, foldl_insertChar_nodup cs st.2 h2⟩

theorem foldl_applyAct_inv (nm : List (String × String)) (lines : List (List Char))
    (st : List (List String) × List String) (h : sceneInv st) :
    sceneInv (lines.foldl (fun st line => applyAct st (lineAct1 nm line)) st) := by
  induction lines generalizing st with
  | nil => exact h
  | cons l rest ih => exact ih _ (applyAct_inv _ _ h)

theorem parseCore1_nodup (nm : List (String × String)) (text : String) :
    ∀ sc ∈ (parseCore1 nm text).1, sc.Nodup := by
  unfold parseCore1
  simp only
  have hinv := foldl_applyAct_inv nm (splitCh '\n' text.data) ([], [])
    ⟨fun sc hsc => by simp at hsc, List.nodup_nil⟩
  obtain ⟨h1, h2⟩ := hinv
  intro sc hsc
  by_cases hne : ((splitCh '\n' text.data).foldl
      (fun st line => applyAct st (lineAct1 nm line)) ([], [])).2 ≠ []
  · rw [if_pos hne] at hsc
    rcases List.mem_append.mp hsc with hh | hh
    · exact h1 sc hh
    · rw [List.mem_singleton.mp hh]
      exact h2
  · rw [if_neg hne] at hsc
    exact h1 sc hsc

theorem mem_bumpCount (p k : String × String) (v : Nat)
    (acc : List ((String × String) × Nat)) (h : (k, v) ∈ bumpCount p acc) :
    (∃ v', (k, v') ∈ acc) ∨ k = p := by
  induction acc with
  | nil =>
    simp [bumpCount] at h
    exact Or.inr h.1
  | cons q rest ih =>
    obtain ⟨k0, v0⟩ := q
    by_cases h0 : k0 = p
    · rw [bumpCount, if_pos h0] at h
      rcases List.mem_cons.mp h with hh | hh
      · rw [Prod.mk.injEq] at hh
        exact Or.inr (hh.1.trans h0)
      · exact Or.inl ⟨v, List.mem_cons_of_mem _ hh⟩
    · rw [bumpCount, if_neg h0] at h
      rcases List.mem_cons.mp h with hh | hh
      · rw [Prod.mk.injEq] at hh
        exact Or.inl ⟨v0, by rw [hh.1]; exact List.mem_cons_self _ _⟩
      · rcases ih hh with ⟨v', hv'⟩ | hk
        · exact Or.inl ⟨v', List.mem_cons_of_mem _ hv'⟩
        · exact Or.inr hk

theorem mem_foldl_bumpCount (P : List (String × String))
    (acc : List ((String × String) × Nat)) (k : String × String) (v : Nat)
    (h : (k, v) ∈ P.foldl (fun a p => bumpCount p a) acc) :
    (∃ v', (k, v') ∈ acc) ∨ k ∈ P := by
  induction P generalizing acc v with
  | nil => exact Or.inl ⟨v, h⟩
  | cons p P' ih =>
    rcases ih (bumpCount p acc) v h with ⟨v', hv'⟩ | hk
    · rcases mem_bumpCount p k v' acc hv' with hmem | heq
      · exact Or.inl hmem
      · exact Or.inr (heq ▸ List.mem_cons_self _ _)
    · exact Or.inr (List.mem_cons_of_mem _ hk)

theorem mem_interactionsOf (scenes : List (List String)) (k : String × String) (v : Nat)
    (h : (k, v) ∈ interactionsOf scenes) : ∃ sc ∈ scenes, k ∈ pairsOf sc := by
  unfold interactionsOf at h
  suffices hgen : ∀ acc, (k, v) ∈ scenes.foldl
      (fun acc sc => (pairsOf sc).foldl (fun a p => bumpCount p a) acc) acc →
      (∃ v', (k, v') ∈ acc) ∨ ∃ sc ∈ scenes, k ∈ pairsOf sc by
    rcases hgen [] h with ⟨v', hv'⟩ | hsc
    · simp at hv'
    · exact hsc
  clear h
  induction scenes with
  | nil => exact fun acc h => Or.inl ⟨v, h⟩
  | cons sc rest ih =>
    intro acc h
    simp only [List.foldl_cons] at h
    rcases ih _ h with ⟨v', hv'⟩ | hsc
    · rcases mem_foldl_bumpCount _ _ _ _ hv' with hmem | hk
      · exact Or.inl hmem
      · exact Or.inr ⟨sc, List.mem_cons_self _ _, hk⟩
    · obtain ⟨sc2, hsc2, hk2⟩ := hsc
      exact Or.inr ⟨sc2, List.mem_cons_of_mem _ hsc2, hk2⟩

theorem countOcc_sum_filter (scenes : List (List String)) (A B : String)
    (hAB : A < B) (hnd : ∀ sc ∈ scenes, sc.Nodup) :
    (scenes.map (fun sc => countOcc (A, B) (pairsOf sc))).sum =
      (scenes.filter (fun sc => decide (A ∈ sc) && decide (B ∈ sc))).length := by
  induction scenes with
  | nil => rfl
  | cons sc rest ih =>
    have hsc : sc.Nodup := hnd sc (List.mem_cons_self _ _)
    have hrest := ih (fun s hs => hnd s (List.mem_cons_of_mem _ hs))
    simp only [List.map_cons, List.sum_cons]
    rw [pairsOf_count sc hsc A B, hrest]
    by_cases hA : A ∈ sc
    · by_cases hB : B ∈ sc
      · rw [if_pos ⟨hA, hB, hAB⟩, List.filter_cons_of_pos (by simp [hA, hB])]
        simp
        omega
      · rw [if_neg (fun h => hB h.2.1), List.filter_cons_of_neg (by simp [hB])]
        omega
    · rw [if_neg (fun h => hA h.1), List.filter_cons_of_neg (by simp [hA])]
      omega

/-- C2: in the interaction table of `parse_episode_file`, every key is a
strictly increasing pair of names, the entry for a pair `(A, B)` with
`A < B` equals the number of completed scenes containing both `A` and
`B` (0 means absent), and no key with `A ≥ B` — in particular no
`(B, A)` duplicate — is stored. -/
theorem claim_C2_interaction_counts (text : String) (A B : String) :
    (∀ kv ∈ (parse_episode_file text).2, kv.1.1 < kv.1.2) ∧
    (A < B →
      (alookup (A, B) (parse_episode_file text).2).getD 0 =
        ((parse_episode_file text).1.filter
          (fun sc => decide (A ∈ sc) && decide (B ∈ sc))).length) ∧
    (¬ A < B → alookup (A, B) (parse_episode_file text).2 = none) := by
  have hnd : ∀ sc ∈ (parse_episode_file text).1, sc.Nodup :=
    parseCore1_nodup NAME_MAP text
  have h2eq : (parse_episode_file text).2 = interactionsOf (parse_episode_file text).1 := rfl
  refine ⟨?_, ?_, ?_⟩
  · intro kv hkv
    rw [h2eq] at hkv
    obtain ⟨sc, hsc, hk⟩ := mem_interactionsOf _ kv.1 kv.2 (by
      have : kv = (kv.1, kv.2) := rfl
      rw [← this]
      exact hkv)
    exact pairsOf_lt sc (hnd sc hsc) kv.1 hk
  · intro hAB
    rw [h2eq]
    unfold interactionsOf
    rw [interactions_getD]
    rw [countOcc_sum_filter _ A B hAB hnd]
    simp [alookup]
  · intro hAB
    rw [h2eq]
    unfold interactionsOf
    rw [interactions_none]
    refine ⟨rfl, fun sc hsc => ?_⟩
    rw [pairsOf_count sc (hnd sc hsc) A B]
    rw [if_neg (fun h => hAB h.2.2)]

/-- Witness for C2 at a concrete file and pair. -/
theorem claim_C2_witness :
    (("Monica" : String) < "Ross" ∧
      (alookup ("Monica", "Ross")
          (parse_episode_file "[Scene: Central Perk]\nMonica: Hi!\nRoss: Hey.").2).getD 0 =
        ((parse_episode_file "[Scene: Central Perk]\nMonica: Hi!\nRoss: Hey.").1.filter
          (fun sc => decide ("Monica" ∈ sc) && decide ("Ross" ∈ sc))).length) ∧
    (¬ ("Ross" : String) < "Monica" ∧
      alookup ("Ross", "Monica")
        (parse_episode_file "[Scene: Central Perk]\nMonica: Hi!\nRoss: Hey.").2 = none) :=
  ⟨⟨by rw [String.lt_iff_toList_lt]; decide,
    (claim_C2_interaction_counts "[Scene: Central Perk]\nMonica: Hi!\nRoss: Hey."
      "Monica" "Ross").2.1 (by rw [String.lt_iff_toList_lt]; decide)⟩,
   ⟨by rw [String.lt_iff_toList_lt]; decide,
    (claim_C2_interaction_counts "[Scene: Central Perk]\nMonica: Hi!\nRoss: Hey."
      "Ross" "Monica").2.2 (by rw [String.lt_iff_toList_lt]; decide)⟩⟩

/-- Witness for C1's amended equivalence on a concrete two-speaker file
on which the word-count parser returns normally. -/
theorem claim_C1_witness :
    (∀ line ∈ splitCh '\n' ("[Scene: Central Perk]\nMonica: Hi!\n[Scene: Flat]\nRoss: Hey.".data),
      sceneActOf (lineAct2 line) = lineAct1 NAME_MAP line) ∧
    (parse_episode_file_with_wordcount "[Scene: Central Perk]\nMonica: Hi!\n[Scene: Flat]\nRoss: Hey." =
      some ([["Monica"], ["Ross"]], [], [("Monica", 1), ("Ross", 1)])) ∧
    ((([["Monica"], ["Ross"]], [], [("Monica", 1), ("Ross", 1)]) :
        List (List String) × List ((String × String) × Nat) × List (String × Nat)).1 =
      (parse_episode_file "[Scene: Central Perk]\nMonica: Hi!\n[Scene: Flat]\nRoss: Hey.").1 ∧
     (([["Monica"], ["Ross"]], [], [("Monica", 1), ("Ross", 1)]) :
        List (List String) × List ((String × String) × Nat) × List (String × Nat)).2.1 =
      (parse_episode_file "[Scene: Central Perk]\nMonica: Hi!\n[Scene: Flat]\nRoss: Hey.").2) :=
  ⟨by decide, by rfl,
    claim_C1_same_traversal "[Scene: Central Perk]\nMonica: Hi!\n[Scene: Flat]\nRoss: Hey." (by decide)
      ([["Monica"], ["Ross"]], [], [("Monica", 1), ("Ross", 1)]) (by rfl)⟩

theorem validPath_singleton (g : Graph) (s : String) : validPath g s s [s] :=
  ⟨by simp, rfl, rfl, List.chain'_singleton s⟩

theorem validPath_pos (g : Graph) (s t : String) (p : List String)
    (h : validPath g s t p) : 1 ≤ p.length := by
  obtain ⟨hne, -, -, -⟩ := h
  cases p with
  | nil => exact absurd rfl hne
  | cons a rest => simp

theorem validPath_length_one (g : Graph) (s t : String) (p : List String)
    (h : validPath g s t p) (hl : p.length = 1) : t = s ∧ p = [s] := by
  obtain ⟨hne, hh, ht, -⟩ := h
  cases p with
  | nil => exact absurd rfl hne
  | cons a rest =>
    cases rest with
    | nil =>
      simp only [List.head?_cons, Option.some.injEq] at hh
      simp only [List.getLast?_singleton, Option.some.injEq] at ht
      subst hh
      subst ht
      exact ⟨rfl, rfl⟩
    | cons b rest2 => simp at hl

theorem validPath_extend (g : Graph) (s w y : String) (p : List String)
    (h : validPath g s w p) (hn : y ∈ g.nbrs w) : validPath g s y (p ++ [y]) := by
  obtain ⟨hne, hh, ht, hc⟩ := h
  refine ⟨by simp, ?_, ?_, ?_⟩
  · cases p with
    | nil => exact absurd rfl hne
    | cons a rest => simpa using hh
  · simp [List.getLast?_concat]
  · rw [List.chain'_append]
    refine ⟨hc, List.chain'_singleton y, ?_⟩
    intro x hx y2 hy2
    simp only [List.head?_cons, Option.mem_def, Option.some.injEq] at hy2
    subst hy2
    rw [ht] at hx
    simp only [Option.mem_def, Option.some.injEq] at hx
    subst hx
    exact hn

theorem validPath_snoc_decomp (g : Graph) (s t : String) (p : List String)
    (h : validPath g s t p) (hl : 2 ≤ p.length) :
    ∃ p' w, p = p' ++ [t] ∧ validPath g s w p' ∧ t ∈ g.nbrs w := by
  obtain ⟨hne, hh, ht, hc⟩ := h
  have hdecomp : p.dropLast ++ [t] = p := List.dropLast_append_getLast? t ht
  have hdne : p.dropLast ≠ [] := by
    intro hnil
    rw [hnil] at hdecomp
    rw [← hdecomp] at hl
    simp at hl
  refine ⟨p.dropLast, p.dropLast.getLast hdne, hdecomp.symm, ⟨hdne, ?_, ?_, ?_⟩, ?_⟩
  · rw [← hdecomp] at hh
    cases hd : p.dropLast with
    | nil => exact absurd hd hdne
    | cons a rest =>
      rw [hd] at hh
      simpa using hh
  · exact List.getLast?_eq_getLast _ hdne
  · rw [← hdecomp] at hc
    exact (List.chain'_append.mp hc).1
  · rw [← hdecomp] at hc
    have h3 := (List.chain'_append.mp hc).2.2
    have := h3 (p.dropLast.getLast hdne) (by rw [List.getLast?_eq_getLast _ hdne]; rfl) t rfl
    exact this

theorem path_closure (g : Graph) (v : List String)
    (hclosed : ∀ x ∈ v, ∀ y ∈ g.nbrs x, y ∈ v) :
    ∀ p s t, s ∈ v → validPath g s t p → t ∈ v := by
  intro p
  induction p with
  | nil =>
    intro s t hs h
    exact absurd rfl h.1
  | cons a rest ih =>
    intro s t hs h
    obtain ⟨-, hh, ht, hc⟩ := h
    simp only [List.head?_cons, Option.some.injEq] at hh
    subst hh
    cases rest with
    | nil =>
      simp only [List.getLast?_singleton, Option.some.injEq] at ht
      subst ht
      exact hs
    | cons b rest2 =>
      rw [List.chain'_cons] at hc
      have hb : b ∈ v := hclosed a hs b hc.1
      have hvb : validPath g b t (b :: rest2) := ⟨by simp, rfl, by simpa using ht, hc.2⟩
      exact ih b t hb hvb

theorem enq_spec (path : List String) (nbrs : List String) :
    ∀ q v, ∃ newNs : List String,
      enqueueNbrs path nbrs q v =
        (q ++ newNs.map (fun n => (n, path ++ [n])), v ++ newNs) ∧
      newNs.Nodup ∧
      (∀ n ∈ newNs, n ∈ nbrs ∧ n ∉ v) ∧
      (∀ n ∈ nbrs, n ∈ v ++ newNs) := by
  induction nbrs with
  | nil =>
    intro q v
    exact ⟨[], by simp [enqueueNbrs], List.nodup_nil, by simp, by simp⟩
  | cons n ns ih =>
    intro q v
    by_cases hv : n ∈ v
    · obtain ⟨newNs, heq, hnd, hmem, hcov⟩ := ih q v
      refine ⟨newNs, ?_, hnd, ?_, ?_⟩
      · rw [enqueueNbrs, if_pos hv]
        exact heq
      · intro m hm
        exact ⟨List.mem_cons_of_mem _ (hmem m hm).1, (hmem m hm).2⟩
      · intro m hm
        rcases List.mem_cons.mp hm with h | h
        · subst h
          exact List.mem_append_left _ hv
        · exact hcov m h
    · obtain ⟨newNs, heq, hnd, hmem, hcov⟩ := ih (q ++ [(n, path ++ [n])]) (v ++ [n])
      have hnin : n ∉ newNs := fun hn => (hmem n hn).2 (by simp)
      refine ⟨n :: newNs, ?_, List.nodup_cons.mpr ⟨hnin, hnd⟩, ?_, ?_⟩
      · rw [enqueueNbrs, if_neg hv, heq]
        simp [List.append_assoc]
      · intro m hm
        rcases List.mem_cons.mp hm with h | h
        · subst h
          exact ⟨List.mem_cons_self _ _, hv⟩
        · have h1 := hmem m h
          refine ⟨List.mem_cons_of_mem _ h1.1, fun hmv => h1.2 ?_⟩
          exact List.mem_append_left _ hmv
      · intro m hm
        rcases List.mem_cons.mp hm with h | h
        · subst h
          simp
        · have := hcov m h
          simp only [List.append_assoc] at this
          simpa using this

theorem nbrs_subset_allNbr (g : Graph) (x : String) : g.nbrs x ⊆ allNbrNames g := by
  unfold Graph.nbrs
  cases hc : alookup x g.nodes with
  | none => simp
  | some nd =>
    intro y hy
    unfold allNbrNames
    rw [List.mem_flatten]
    refine ⟨nd.neighbors.map (·.1), ?_, hy⟩
    rw [List.mem_map]
    exact ⟨(x, nd), alookup_mem x g.nodes nd hc, rfl⟩

theorem map_fst_pairs (pc : List String) (L : List String) :
    (L.map (fun n => (n, pc ++ [n]))).map (fun cp => cp.1) = L := by
  induction L with
  | nil => rfl
  | cons a L ih => simp [ih]

theorem bfsInv_step (g : Graph) (s e curr : String) (pc : List String)
    (rest : List (String × List String)) (v : List String)
    (hinv : bfsInv g s e ((curr, pc) :: rest) v) (hce : curr ≠ e) :
    bfsInv g s e (enqueueNbrs pc (g.nbrs curr) rest v).1
      (enqueueNbrs pc (g.nbrs curr) rest v).2 ∧
    ∃ k, (enqueueNbrs pc (g.nbrs curr) rest v).1.length = rest.length + k ∧
      (enqueueNbrs pc (g.nbrs curr) rest v).2.length = v.length + k := by
  obtain ⟨newNs, heq, hnewnd, hnewmem, hcov⟩ := enq_spec pc (g.nbrs curr) rest v
  obtain ⟨hA, hAmin, hqv, hvnd, hvU, hsv, hsort, hpair, hC, hE, hD⟩ := hinv
  simp only [List.map_cons] at hsort
  have heq1 : (enqueueNbrs pc (g.nbrs curr) rest v).1 =
      rest ++ newNs.map (fun n => (n, pc ++ [n])) := by rw [heq]
  have heq2 : (enqueueNbrs pc (g.nbrs curr) rest v).2 = v ++ newNs := by rw [heq]
  rw [heq1, heq2]
  have hpc_valid : validPath g s curr pc := hA (curr, pc) (List.mem_cons_self _ _)
  have hheadmin : ∀ dq ∈ rest, pc.length ≤ dq.2.length := by
    intro dq hdq
    exact List.rel_of_sorted_cons hsort _ (List.mem_map_of_mem _ hdq)
  have hDhead : ∀ x, x ∉ v → ∀ p', validPath g s x p' → pc.length + 1 ≤ p'.length :=
    hD (curr, pc) rfl
  have hnew_valid : ∀ n ∈ newNs, validPath g s n (pc ++ [n]) := fun n hn =>
    validPath_extend g s curr n pc hpc_valid (hnewmem n hn).1
  have hnew_min : ∀ n ∈ newNs, ∀ p', validPath g s n p' → (pc ++ [n]).length ≤ p'.length := by
    intro n hn p' hp'
    have := hDhead n (hnewmem n hn).2 p' hp'
    simpa using this
  refine ⟨⟨?_, ?_, ?_, ?_, ?_, ?_, ?_, ?_, ?_, ?_, ?_⟩,
    ⟨newNs.length, by simp, by simp⟩⟩
  · -- valid paths
    intro cp hcp
    rcases List.mem_append.mp hcp with h | h
    · exact hA cp (List.mem_cons_of_mem _ h)
    · obtain ⟨n, hn, rfl⟩ := List.mem_map.mp h
      exact hnew_valid n hn
  · -- minimal paths
    intro cp hcp
    rcases List.mem_append.mp hcp with h | h
    · exact hAmin cp (List.mem_cons_of_mem _ h)
    · obtain ⟨n, hn, rfl⟩ := List.mem_map.mp h
      exact hnew_min n hn
  · -- queue names visited
    intro cp hcp
    rcases List.mem_append.mp hcp with h | h
    · exact List.mem_append_left _ (hqv cp (List.mem_cons_of_mem _ h))
    · obtain ⟨n, hn, rfl⟩ := List.mem_map.mp h
      exact List.mem_append_right _ hn
  · -- visited nodup
    exact List.Nodup.append hvnd hnewnd (fun a ha hb => (hnewmem a hb).2 ha)
  · -- visited in universe
    intro x hx
    rcases List.mem_append.mp hx with h | h
    · exact hvU h
    · unfold bfsU
      rw [List.mem_dedup]
      exact List.mem_cons_of_mem _ (nbrs_subset_allNbr g curr (hnewmem x h).1)
  · exact List.mem_append_left _ hsv
  · -- sorted lengths
    have hml : ((newNs.map (fun n => (n, pc ++ [n]))).map (fun cp => cp.2.length)) =
        newNs.map (fun _ => pc.length + 1) := by
      rw [List.map_map]
      exact List.map_congr_left (fun n _ => by simp)
    rw [List.map_append, hml]
    rw [List.Sorted, List.pairwise_append]
    refine ⟨hsort.of_cons, ?_, ?_⟩
    · have : ∀ (L : List String), List.Pairwise (· ≤ ·) (L.map (fun _ => pc.length + 1)) := by
        intro L
        induction L with
        | nil => simp
        | cons a L ihL =>
          simp only [List.map_cons, List.pairwise_cons]
          refine ⟨fun y hy => ?_, ihL⟩
          obtain ⟨m, hm, rfl⟩ := List.mem_map.mp hy
          exact le_refl _
      exact this newNs
    · intro a ha b hb
      obtain ⟨dq, hdq, rfl⟩ := List.mem_map.mp ha
      obtain ⟨m, hm, rfl⟩ := List.mem_map.mp hb
      exact hpair dq (List.mem_cons_of_mem _ hdq) (curr, pc) (List.mem_cons_self _ _)
  · -- widths within one
    intro cp hcp dq hdq
    rcases List.mem_append.mp hcp with h1 | h1 <;> rcases List.mem_append.mp hdq with h2 | h2
    · exact hpair cp (List.mem_cons_of_mem _ h1) dq (List.mem_cons_of_mem _ h2)
    · obtain ⟨n, hn, rfl⟩ := List.mem_map.mp h2
      have h3 : cp.2.length ≤ pc.length + 1 :=
        hpair cp (List.mem_cons_of_mem _ h1) (curr, pc) (List.mem_cons_self _ _)
      show cp.2.length ≤ (pc ++ [n]).length + 1
      simp only [List.length_append, List.length_cons, List.length_nil]
      omega
    · obtain ⟨n, hn, rfl⟩ := List.mem_map.mp h1
      have h3 : pc.length ≤ dq.2.length := hheadmin dq h2
      show (pc ++ [n]).length ≤ dq.2.length + 1
      simp only [List.length_append, List.length_cons, List.length_nil]
      omega
    · obtain ⟨n, hn, rfl⟩ := List.mem_map.mp h1
      obtain ⟨m, hm, rfl⟩ := List.mem_map.mp h2
      show (pc ++ [n]).length ≤ (pc ++ [m]).length + 1
      simp
  · -- processed nodes closed
    intro x hx hxq y hy
    have hfst : ((rest ++ newNs.map (fun n => (n, pc ++ [n]))).map (fun cp => cp.1)) =
        rest.map (fun cp => cp.1) ++ newNs := by
      rw [List.map_append, map_fst_pairs]
    rw [hfst] at hxq
    rcases List.mem_append.mp hx with hxv | hxnew
    · by_cases hxf : x ∈ ((curr, pc) :: rest).map (fun cp => cp.1)
      · simp only [List.map_cons] at hxf
        rcases List.mem_cons.mp hxf with hxc | hxr
        · subst hxc
          exact hcov y hy
        · exact absurd (List.mem_append_left _ hxr) hxq
      · exact List.mem_append_left _ (hC x hxv hxf y hy)
    · exact absurd (List.mem_append_right _ hxnew) hxq
  · -- target never processed
    intro hev
    have hfst : ((rest ++ newNs.map (fun n => (n, pc ++ [n]))).map (fun cp => cp.1)) =
        rest.map (fun cp => cp.1) ++ newNs := by
      rw [List.map_append, map_fst_pairs]
    rw [hfst]
    rcases List.mem_append.mp hev with h | h
    · have := hE h
      simp only [List.map_cons] at this
      rcases List.mem_cons.mp this with h2 | h2
      · exact absurd h2.symm hce
      · exact List.mem_append_left _ h2
    · exact List.mem_append_right _ h
  · -- unvisited distance bound
    intro hd' hhd' x hxv' p' hp'
    have hxv : x ∉ v := fun h => hxv' (List.mem_append_left _ h)
    have hbase : pc.length + 1 ≤ p'.length := hDhead x hxv p' hp'
    by_cases hplen : pc.length + 2 ≤ p'.length
    · have hhdmem : hd' ∈ rest ++ newNs.map (fun n => (n, pc ++ [n])) :=
        List.mem_of_mem_head? (by rw [hhd']; rfl)
      have hle : hd'.2.length ≤ pc.length + 1 := by
        rcases List.mem_append.mp hhdmem with h | h
        · exact hpair hd' (List.mem_cons_of_mem _ h) (curr, pc) (List.mem_cons_self _ _)
        · obtain ⟨n, hn, rfl⟩ := List.mem_map.mp h
          simp
      omega
    · have hpeq : p'.length = pc.length + 1 := by omega
      have hpcpos : 1 ≤ pc.length := validPath_pos g s curr pc hpc_valid
      have h2 : 2 ≤ p'.length := by omega
      obtain ⟨p'', w, hpdec, hp''valid, hxw⟩ := validPath_snoc_decomp g s x p' hp' h2
      have hp''len : p''.length = pc.length := by
        rw [hpdec] at hpeq
        simp only [List.length_append, List.length_singleton] at hpeq
        omega
      have hwv : w ∈ v := by
        by_contra hwnv
        have := hDhead w hwnv p'' hp''valid
        omega
      by_cases hwf : w ∈ ((curr, pc) :: rest).map (fun cp => cp.1)
      · simp only [List.map_cons] at hwf
        rcases List.mem_cons.mp hwf with hwc | hwr
        · subst hwc
          exact absurd (hcov x hxw) hxv'
        · obtain ⟨dq, hdq, hdqw⟩ := List.mem_map.mp hwr
          have hpw_min : dq.2.length ≤ p''.length := by
            apply hAmin dq (List.mem_cons_of_mem _ hdq)
            rw [hdqw]
            exact hp''valid
          cases hrest : rest with
          | nil =>
            rw [hrest] at hdq
            simp at hdq
          | cons c rest2 =>
            have hhd'c : hd' = c := by
              rw [hrest] at hhd'
              simp only [List.cons_append, List.head?_cons, Option.some.injEq] at hhd'
              exact hhd'.symm
            have hcmin : c.2.length ≤ dq.2.length := by
              have hsortrest : List.Sorted (· ≤ ·) ((c :: rest2).map (fun cp => cp.2.length)) := by
                rw [← hrest]
                exact hsort.of_cons
              simp only [List.map_cons] at hsortrest
              rw [hrest] at hdq
              rcases List.mem_cons.mp hdq with h | h
              · rw [h]
              · exact List.rel_of_sorted_cons hsortrest _ (List.mem_map_of_mem _ h)
            rw [hhd'c]
            omega
      · exact absurd (hC w hwv hwf x hxw) hxv

theorem bfs_empty_none (g : Graph) (s e : String) (v : List String)
    (hinv : bfsInv g s e [] v) : ¬ ∃ p, validPath g s e p := by
  obtain ⟨-, -, -, -, -, hsv, -, -, hC, hE, -⟩ := hinv
  rintro ⟨p, hp⟩
  have hclosed : ∀ x ∈ v, ∀ y ∈ g.nbrs x, y ∈ v := fun x hx => hC x hx (by simp)
  have he : e ∈ v := path_closure g v hclosed p s e hsv hp
  have := hE he
  simp at this

theorem bfs_master (g : Graph) (s e : String) (fuel : Nat) :
    ∀ (q : List (String × List String)) (v : List String),
      bfsInv g s e q v →
      q.length + ((bfsU g s).length - v.length) ≤ fuel →
      (bfsLoop g e fuel q v = none → ¬ ∃ p, validPath g s e p) ∧
      (∀ p, bfsLoop g e fuel q v = some p →
        validPath g s e p ∧ ∀ p', validPath g s e p' → p.length ≤ p'.length) := by
  induction fuel with
  | zero =>
    intro q v hinv hfuel
    have hq : q = [] := by
      cases q with
      | nil => rfl
      | cons a r =>
        exfalso
        simp only [List.length_cons] at hfuel
        omega
    subst hq
    refine ⟨fun _ => bfs_empty_none g s e v hinv, fun p hp => ?_⟩
    simp [bfsLoop] at hp
  | succ fuel ih =>
    intro q v hinv hfuel
    cases q with
    | nil =>
      refine ⟨fun _ => bfs_empty_none g s e v hinv, fun p hp => ?_⟩
      simp [bfsLoop] at hp
    | cons hd rest =>
      obtain ⟨curr, pc⟩ := hd
      by_cases hce : curr = e
      · have hrun : bfsLoop g e (fuel + 1) ((curr, pc) :: rest) v = some pc := by
          simp [bfsLoop, hce]
        refine ⟨fun hn => ?_, fun p hp => ?_⟩
        · rw [hrun] at hn
          cases hn
        rw [hrun] at hp
        have hppc : pc = p := by
          injection hp
        subst hppc
        obtain ⟨hA, hAmin, -⟩ := hinv
        constructor
        · have := hA (curr, pc) (List.mem_cons_self _ _)
          rw [← hce]
          exact this
        · intro p' hp'
          exact hAmin (curr, pc) (List.mem_cons_self _ _) p' (by rw [hce]; exact hp')
      · obtain ⟨hinv', k, hq1, hq2⟩ := bfsInv_step g s e curr pc rest v hinv hce
        have hinv'' := hinv'
        obtain ⟨-, -, -, hv'nd, hv'U, -⟩ := hinv''
        have hv'le : (enqueueNbrs pc (g.nbrs curr) rest v).2.length ≤ (bfsU g s).length :=
          (List.subperm_of_subset hv'nd hv'U).length_le
        have hfuel' : (enqueueNbrs pc (g.nbrs curr) rest v).1.length +
            ((bfsU g s).length - (enqueueNbrs pc (g.nbrs curr) rest v).2.length) ≤ fuel := by
          simp only [List.length_cons] at hfuel
          rw [hq1, hq2]
          rw [hq2] at hv'le
          omega
        have hrun : bfsLoop g e (fuel + 1) ((curr, pc) :: rest) v =
            bfsLoop g e fuel (enqueueNbrs pc (g.nbrs curr) rest v).1
              (enqueueNbrs pc (g.nbrs curr) rest v).2 := by
          simp [bfsLoop, hce]
        rw [hrun]
        exact ih _ _ hinv' hfuel'

theorem bfsInv_init (g : Graph) (s e : String) : bfsInv g s e [(s, [s])] [s] := by
  refine ⟨?_, ?_, ?_, ?_, ?_, ?_, ?_, ?_, ?_, ?_, ?_⟩
  · rintro cp hcp
    rw [List.mem_singleton] at hcp
    subst hcp
    exact validPath_singleton g s
  · rintro cp hcp p' hp'
    rw [List.mem_singleton] at hcp
    subst hcp
    exact validPath_pos g s s p' hp'
  · rintro cp hcp
    rw [List.mem_singleton] at hcp
    subst hcp
    simp
  · simp
  · intro x hx
    rw [List.mem_singleton] at hx
    subst hx
    unfold bfsU
    rw [List.mem_dedup]
    exact List.mem_cons_self _ _
  · simp
  · simp
  · rintro cp hcp dq hdq
    rw [List.mem_singleton] at hcp hdq
    subst hcp
    subst hdq
    simp
  · intro x hx hxq
    rw [List.mem_singleton] at hx
    subst hx
    simp at hxq
  · intro hev
    rw [List.mem_singleton] at hev
    subst hev
    simp
  · intro hd hhd x hxv p' hp'
    simp only [List.head?_cons, Option.some.injEq] at hhd
    subst hhd
    simp only [List.length_singleton]
    have h1 : 1 ≤ p'.length := validPath_pos g s x p' hp'
    by_cases h2 : 2 ≤ p'.length
    · exact h2
    · exfalso
      have hl1 : p'.length = 1 := by omega
      obtain ⟨hxs, -⟩ := validPath_length_one g s x p' hp' hl1
      subst hxs
      simp at hxv

theorem shortest_path_self (g : Graph) (s : String)
    (h : (alookup s g.nodes).isSome) : g.shortest_path s s = some [s] := by
  unfold Graph.shortest_path
  rw [if_pos ⟨h, h⟩]
  unfold bfsFuel
  have h2 : 2 + (allNbrNames g).length = (1 + (allNbrNames g).length) + 1 := by omega
  rw [h2]
  simp [bfsLoop]

/-- C5: `shortest_path` returns `None` exactly when an endpoint is
missing or no walk joins them; otherwise it returns a walk from `start`
to `end` along stored adjacencies of minimal length (hop count, weights
ignored); and on an existing node `X`, `shortest_path X X` is `[X]`. -/
theorem claim_C5_shortest_path (g : Graph) (s e : String) :
    (g.shortest_path s e = none ↔
      (¬ (alookup s g.nodes).isSome ∨ ¬ (alookup e g.nodes).isSome ∨
        ¬ ∃ p, validPath g s e p)) ∧
    (∀ p, g.shortest_path s e = some p →
      validPath g s e p ∧ ∀ p', validPath g s e p' → p.length ≤ p'.length) ∧
    ((alookup s g.nodes).isSome → g.shortest_path s s = some [s]) := by
  refine ⟨?_, ?_, fun h => shortest_path_self g s h⟩ <;>
    unfold Graph.shortest_path <;>
    by_cases hmem : (alookup s g.nodes).isSome ∧ (alookup e g.nodes).isSome
  · rw [if_pos hmem]
    have hfuel0 : ([(s, [s])] : List (String × List String)).length +
        ((bfsU g s).length - ([s] : List String).length) ≤ bfsFuel g := by
      have hle := (List.dedup_sublist (s :: allNbrNames g)).length_le
      unfold bfsU at *
      unfold bfsFuel
      simp only [List.length_cons, List.length_nil] at *
      omega
    have hmaster := bfs_master g s e (bfsFuel g) [(s, [s])] [s] (bfsInv_init g s e) hfuel0
    constructor
    · intro hn
      exact Or.inr (Or.inr (hmaster.1 hn))
    · intro h
      rcases h with h | h | h
      · exact absurd hmem.1 h
      · exact absurd hmem.2 h
      · cases hres : bfsLoop g e (bfsFuel g) [(s, [s])] [s] with
        | none => rfl
        | some p => exact absurd ⟨p, (hmaster.2 p hres).1⟩ h
  · rw [if_neg hmem]
    constructor
    · intro _
      rcases Decidable.not_and_iff_or_not.mp hmem with h | h
      · exact Or.inl h
      · exact Or.inr (Or.inl h)
    · intro _
      rfl
  · rw [if_pos hmem]
    have hfuel0 : ([(s, [s])] : List (String × List String)).length +
        ((bfsU g s).length - ([s] : List String).length) ≤ bfsFuel g := by
      have hle := (List.dedup_sublist (s :: allNbrNames g)).length_le
      unfold bfsU at *
      unfold bfsFuel
      simp only [List.length_cons, List.length_nil] at *
      omega
    exact (bfs_master g s e (bfsFuel g) [(s, [s])] [s] (bfsInv_init g s e) hfuel0).2
  · rw [if_neg hmem]
    intro p hp
    cases hp

/-- Witness for C5 on the path graph A - B - C. -/
theorem claim_C5_witness :
    ((Graph.empty.add_edge "A" "B" 1).add_edge "B" "C" 1).shortest_path "A" "C" =
      some ["A", "B", "C"] ∧
    (validPath ((Graph.empty.add_edge "A" "B" 1).add_edge "B" "C" 1) "A" "C"
        ["A", "B", "C"] ∧
      ∀ p', validPath ((Graph.empty.add_edge "A" "B" 1).add_edge "B" "C" 1) "A" "C" p' →
        (["A", "B", "C"] : List String).length ≤ p'.length) ∧
    (alookup "A" ((Graph.empty.add_edge "A" "B" 1).add_edge "B" "C" 1).nodes).isSome ∧
    ((Graph.empty.add_edge "A" "B" 1).add_edge "B" "C" 1).shortest_path "A" "A" =
      some ["A"] :=
  ⟨rfl,
    (claim_C5_shortest_path ((Graph.empty.add_edge "A" "B" 1).add_edge "B" "C" 1)
      "A" "C").2.1 ["A", "B", "C"] rfl,
    by decide,
    (claim_C5_shortest_path ((Graph.empty.add_edge "A" "B" 1).add_edge "B" "C" 1)
      "A" "A").2.2 (by decide)⟩

end Friends

